import Mathlib

/-!
# The MessagePack codec of libucl (`src/ucl_msgpack.c`)

A shallow embedding of the emitter functions, the format table, the lead-byte
classifier and the decoder loop of `src/ucl_msgpack.c`, followed by the
properties established about them.

Conventions of the embedding:

* a byte is a `Nat` below 256, a buffer is a `List Nat`;
* `int64_t` values are `Int`, unsigned machine words are `Nat`; every C
  conversion to a narrower unsigned type is written as an explicit `%`;
* the output sink of the emitter is the list of bytes appended so far;
* an address is a `Nat`; the input chunk of the decoder is a start address
  together with the bytes stored from that address on;
* the decoder loop is a step function on its local variables, iterated a given
  number of times.
-/

namespace UclMsgpack

/-! ## Byte-order utilities (lines 41-98) -/

/-- Byte order of the host, the `__LITTLE_ENDIAN__` / `__BIG_ENDIAN__` switch of
lines 41-49 and 84-98. -/
inductive host_endian where
  | little_endian
  | big_endian
deriving DecidableEq, Repr

/-- `SWAP_LE_BE16(val)` (lines 51-53): every intermediate value is cast to
`uint16_t`. -/
def SWAP_LE_BE16 (val : Nat) : Nat :=
  ((((val % 2 ^ 16) >>> 8) % 2 ^ 16) ||| (((val % 2 ^ 16) <<< 8) % 2 ^ 16)) % 2 ^ 16

/-- `SWAP_LE_BE32(val)` in its portable form (lines 59-63); `__builtin_bswap32`
of line 56 computes the same byte reversal. -/
def SWAP_LE_BE32 (val : Nat) : Nat :=
  (((((val % 2 ^ 32) &&& 0x000000ff) <<< 24) % 2 ^ 32) |||
   ((((val % 2 ^ 32) &&& 0x0000ff00) <<< 8) % 2 ^ 32) |||
   (((val % 2 ^ 32) &&& 0x00ff0000) >>> 8) |||
   (((val % 2 ^ 32) &&& 0xff000000) >>> 24)) % 2 ^ 32

/-- `SWAP_LE_BE64(val)` in its portable form (lines 65-81). -/
def SWAP_LE_BE64 (val : Nat) : Nat :=
  (((((val % 2 ^ 64) &&& 0x00000000000000ff) <<< 56) % 2 ^ 64) |||
   ((((val % 2 ^ 64) &&& 0x000000000000ff00) <<< 40) % 2 ^ 64) |||
   ((((val % 2 ^ 64) &&& 0x0000000000ff0000) <<< 24) % 2 ^ 64) |||
   ((((val % 2 ^ 64) &&& 0x00000000ff000000) <<< 8) % 2 ^ 64) |||
   (((val % 2 ^ 64) &&& 0x000000ff00000000) >>> 8) |||
   (((val % 2 ^ 64) &&& 0x0000ff0000000000) >>> 24) |||
   (((val % 2 ^ 64) &&& 0x00ff000000000000) >>> 40) |||
   (((val % 2 ^ 64) &&& 0xff00000000000000) >>> 56)) % 2 ^ 64

/-- `TO_BE16` (lines 85 and 92). -/
def TO_BE16 (h : host_endian) (val : Nat) : Nat :=
  match h with
  | .little_endian => SWAP_LE_BE16 val
  | .big_endian => val % 2 ^ 16

/-- `TO_BE32` (lines 86 and 93). -/
def TO_BE32 (h : host_endian) (val : Nat) : Nat :=
  match h with
  | .little_endian => SWAP_LE_BE32 val
  | .big_endian => val % 2 ^ 32

/-- `TO_BE64` (lines 87 and 94). -/
def TO_BE64 (h : host_endian) (val : Nat) : Nat :=
  match h with
  | .little_endian => SWAP_LE_BE64 val
  | .big_endian => val % 2 ^ 64

/-- `FROM_BE16` (lines 88 and 95). -/
def FROM_BE16 (h : host_endian) (val : Nat) : Nat :=
  match h with
  | .little_endian => SWAP_LE_BE16 val
  | .big_endian => val % 2 ^ 16

/-- `FROM_BE32` (lines 89 and 96). -/
def FROM_BE32 (h : host_endian) (val : Nat) : Nat :=
  match h with
  | .little_endian => SWAP_LE_BE32 val
  | .big_endian => val % 2 ^ 32

/-- `FROM_BE64` (lines 90 and 97). -/
def FROM_BE64 (h : host_endian) (val : Nat) : Nat :=
  match h with
  | .little_endian => SWAP_LE_BE64 val
  | .big_endian => val % 2 ^ 64

/-- Bytes of an unsigned integer of `size` bytes as they lie in the memory of
the host, lowest address first: what `memcpy (&buf[1], &v, sizeof (v))` copies. -/
def memcpy_bytes (h : host_endian) (size : Nat) (v : Nat) : List Nat :=
  match h with
  | .little_endian => (List.range size).map (fun i => (v >>> (8 * i)) % 256)
  | .big_endian => ((List.range size).map (fun i => (v >>> (8 * i)) % 256)).reverse

/-! ## The output sink -/

/-- Sink operation `ucl_emitter_append_len (buf, len, ud)`: the first `len`
bytes of `buf` are appended to the sink `ud`. -/
def ucl_emitter_append_len (buf : List Nat) (len : Nat) (ud : List Nat) : List Nat :=
  ud ++ buf.take len

/-- Sink operation `ucl_emitter_append_character (c, n, ud)`: the byte `c` is
appended `n` times to the sink `ud`. -/
def ucl_emitter_append_character (c : Nat) (n : Nat) (ud : List Nat) : List Nat :=
  ud ++ List.replicate n c

/-! ## Emitter functions (lines 100-325) -/

/-- The "bithack abs" of line 146, `(val ^ (val >> 63)) - (val >> 63)`, stored
in a `uint64_t`. -/
def bithack_abs (val : Int) : Nat :=
  ((Int.xor val (val >>> 63) - (val >>> 63)) % 2 ^ 64).toNat

/-- `ucl_emitter_print_int_msgpack` (lines 100-181); `ud` is the sink before
the call, the result is the sink after it. -/
def ucl_emitter_print_int_msgpack (h : host_endian) (ud : List Nat) (val : Int) : List Nat :=
  let mask_positive := 0x7f
  let mask_negative := 0xe0
  let uint8_ch := 0xcc
  let uint16_ch := 0xcd
  let uint32_ch := 0xce
  let uint64_ch := 0xcf
  let int8_ch := 0xd0
  let int16_ch := 0xd1
  let int32_ch := 0xd2
  let int64_ch := 0xd3
  if val ≥ 0 then
    if val ≤ 0x7f then
      ucl_emitter_append_len [(mask_positive &&& (val % 2 ^ 64).toNat) % 256] 1 ud
    else if val ≤ 0xff then
      ucl_emitter_append_len [uint8_ch, (val % 2 ^ 64).toNat &&& 0xff] 2 ud
    else if val ≤ 0xffff then
      let v := TO_BE16 h (val % 2 ^ 16).toNat
      ucl_emitter_append_len (uint16_ch :: memcpy_bytes h 2 v) 3 ud
    else if val ≤ 0xffffffff then
      let v := TO_BE32 h (val % 2 ^ 32).toNat
      ucl_emitter_append_len (uint32_ch :: memcpy_bytes h 4 v) 5 ud
    else
      let v := TO_BE64 h (val % 2 ^ 64).toNat
      ucl_emitter_append_len (uint64_ch :: memcpy_bytes h 8 v) 9 ud
  else
    let uval := bithack_abs val
    if val ≥ -(1 <<< 5 : Nat) then
      ucl_emitter_append_len [(mask_negative ||| (uval &&& 0xff)) % 256] 1 ud
    else if uval ≤ 0xff then
      ucl_emitter_append_len [int8_ch, (val % 2 ^ 8).toNat] 2 ud
    else if uval ≤ 0xffff then
      let v := TO_BE16 h (val % 2 ^ 16).toNat
      ucl_emitter_append_len (int16_ch :: memcpy_bytes h 2 v) 3 ud
    else if uval ≤ 0xffffffff then
      let v := TO_BE32 h (val % 2 ^ 32).toNat
      ucl_emitter_append_len (int32_ch :: memcpy_bytes h 4 v) 5 ud
    else
      let v := TO_BE64 h (val % 2 ^ 64).toNat
      ucl_emitter_append_len (int64_ch :: memcpy_bytes h 8 v) 9 ud

/-- `ucl_emitter_print_double_msgpack` (lines 183-201); the double is given by
its 64-bit pattern `bits`, the member `u.i` of the union. -/
def ucl_emitter_print_double_msgpack (h : host_endian) (ud : List Nat) (bits : Nat) : List Nat :=
  let dbl_ch := 0xcb
  let i := TO_BE64 h bits
  ucl_emitter_append_len (dbl_ch :: memcpy_bytes h 8 i) 9 ud

/-- `ucl_emitter_print_bool_msgpack` (lines 203-210). -/
def ucl_emitter_print_bool_msgpack (ud : List Nat) (val : Bool) : List Nat :=
  let true_ch := 0xc3
  let false_ch := 0xc2
  ucl_emitter_append_character (if val then true_ch else false_ch) 1 ud

/-- `ucl_emitter_print_string_msgpack` (lines 212-247); `s` holds the bytes of
the string and `len` is the `size_t` length argument. -/
def ucl_emitter_print_string_msgpack (h : host_endian) (ud : List Nat) (s : List Nat)
    (len : Nat) : List Nat :=
  let fix_mask := 0xA0
  let l8_ch := 0xd9
  let l16_ch := 0xda
  let l32_ch := 0xdb
  let ud1 :=
    if len ≤ 0x1F then
      ucl_emitter_append_len [(len ||| fix_mask) &&& 0xff] 1 ud
    else if len ≤ 0xff then
      ucl_emitter_append_len [l8_ch, len &&& 0xff] 2 ud
    else if len ≤ 0xffff then
      let bl := TO_BE16 h (len % 2 ^ 16)
      ucl_emitter_append_len (l16_ch :: memcpy_bytes h 2 bl) 3 ud
    else
      let bl := TO_BE32 h (len % 2 ^ 32)
      ucl_emitter_append_len (l32_ch :: memcpy_bytes h 4 bl) 5 ud
  ucl_emitter_append_len s len ud1

/-- `ucl_emitter_print_null_msgpack` (lines 249-256). -/
def ucl_emitter_print_null_msgpack (ud : List Nat) : List Nat :=
  let nil := 0xc0
  ucl_emitter_append_character nil 1 ud

/-- `ucl_emitter_print_key_msgpack` (lines 258-265); `key` and `keylen` are the
fields `obj->key` and `obj->keylen` of the node. -/
def ucl_emitter_print_key_msgpack (h : host_endian) (print_key : Bool) (ud : List Nat)
    (key : List Nat) (keylen : Nat) : List Nat :=
  if print_key then ucl_emitter_print_string_msgpack h ud key keylen else ud

/-- `ucl_emitter_print_array_msgpack` (lines 267-295). -/
def ucl_emitter_print_array_msgpack (h : host_endian) (ud : List Nat) (len : Nat) : List Nat :=
  let fix_mask := 0x90
  let l16_ch := 0xdc
  let l32_ch := 0xdd
  if len ≤ 0xF then
    ucl_emitter_append_len [(len ||| fix_mask) &&& 0xff] 1 ud
  else if len ≤ 0xffff then
    let bl := TO_BE16 h (len % 2 ^ 16)
    ucl_emitter_append_len (l16_ch :: memcpy_bytes h 2 bl) 3 ud
  else
    let bl := TO_BE32 h (len % 2 ^ 32)
    ucl_emitter_append_len (l32_ch :: memcpy_bytes h 4 bl) 5 ud

/-- `ucl_emitter_print_object_msgpack` (lines 297-325). -/
def ucl_emitter_print_object_msgpack (h : host_endian) (ud : List Nat) (len : Nat) : List Nat :=
  let fix_mask := 0x80
  let l16_ch := 0xde
  let l32_ch := 0xdf
  if len ≤ 0xF then
    ucl_emitter_append_len [(len ||| fix_mask) &&& 0xff] 1 ud
  else if len ≤ 0xffff then
    let bl := TO_BE16 h (len % 2 ^ 16)
    ucl_emitter_append_len (l16_ch :: memcpy_bytes h 2 bl) 3 ud
  else
    let bl := TO_BE32 h (len % 2 ^ 32)
    ucl_emitter_append_len (l32_ch :: memcpy_bytes h 4 bl) 5 ud

/-! ## Format table of the decoder (lines 328-704) -/

/-- `enum ucl_msgpack_format` (lines 328-366). -/
inductive ucl_msgpack_format where
  | msgpack_positive_fixint
  | msgpack_fixmap
  | msgpack_fixarray
  | msgpack_fixstr
  | msgpack_nil
  | msgpack_false
  | msgpack_true
  | msgpack_bin8
  | msgpack_bin16
  | msgpack_bin32
  | msgpack_ext8
  | msgpack_ext16
  | msgpack_ext32
  | msgpack_float32
  | msgpack_float64
  | msgpack_uint8
  | msgpack_uint16
  | msgpack_uint32
  | msgpack_uint64
  | msgpack_int8
  | msgpack_int16
  | msgpack_int32
  | msgpack_int64
  | msgpack_fixext1
  | msgpack_fixext2
  | msgpack_fixext4
  | msgpack_fixext8
  | msgpack_fixext16
  | msgpack_str8
  | msgpack_str16
  | msgpack_str32
  | msgpack_array16
  | msgpack_array32
  | msgpack_map16
  | msgpack_map32
  | msgpack_negative_fixint
  | msgpack_invalid
deriving DecidableEq, Repr

/-- The handler a descriptor points to (the member `func`); the eight handlers
are declared at lines 372-395. -/
inductive ucl_msgpack_parse_function where
  | ucl_msgpack_parse_map
  | ucl_msgpack_parse_array
  | ucl_msgpack_parse_string
  | ucl_msgpack_parse_int
  | ucl_msgpack_parse_float
  | ucl_msgpack_parse_bool
  | ucl_msgpack_parse_null
  | ucl_msgpack_parse_ignore
deriving DecidableEq, Repr

/-- Bodies of the eight handlers (lines 852-914): each one is `return -1;`,
whatever its arguments. -/
def ucl_msgpack_parse_handler (_func : ucl_msgpack_parse_function) (_len : Nat)
    (_fmt : ucl_msgpack_format) (_pos : Nat) (_remain : Nat) : Int :=
  -1

/-- `MSGPACK_FLAG_FIXED` (line 397). -/
def MSGPACK_FLAG_FIXED : Nat := 1 <<< 0

/-- `MSGPACK_FLAG_CONTAINER` (line 398). -/
def MSGPACK_FLAG_CONTAINER : Nat := 1 <<< 1

/-- `MSGPACK_FLAG_TYPEVALUE` (line 399). -/
def MSGPACK_FLAG_TYPEVALUE : Nat := 1 <<< 2

/-- `MSGPACK_FLAG_EXT` (line 400). -/
def MSGPACK_FLAG_EXT : Nat := 1 <<< 3

/-- The descriptor type `struct ucl_msgpack_parser` of lines 405-415, named with
a trailing `_t` here. Its member `prefix` is named `pfx`, `prefix` being a
reserved word of Lean. -/
structure ucl_msgpack_parser_t where
  pfx : Nat
  prefixlen : Nat
  fmt : ucl_msgpack_format
  len : Nat
  flags : Nat
  func : ucl_msgpack_parse_function
deriving DecidableEq, Repr

/-- The table `parsers[]` (lines 415-704), in the order of the source. -/
def parsers : List ucl_msgpack_parser_t := [
  ⟨0xa0, 3, .msgpack_fixstr, 0, MSGPACK_FLAG_FIXED, .ucl_msgpack_parse_string⟩,
  ⟨0x0, 1, .msgpack_positive_fixint, 0, MSGPACK_FLAG_FIXED ||| MSGPACK_FLAG_TYPEVALUE, .ucl_msgpack_parse_int⟩,
  ⟨0xe0, 3, .msgpack_negative_fixint, 0, MSGPACK_FLAG_FIXED ||| MSGPACK_FLAG_TYPEVALUE, .ucl_msgpack_parse_int⟩,
  ⟨0x80, 4, .msgpack_fixmap, 0, MSGPACK_FLAG_FIXED ||| MSGPACK_FLAG_CONTAINER, .ucl_msgpack_parse_map⟩,
  ⟨0x90, 4, .msgpack_fixarray, 0, MSGPACK_FLAG_FIXED ||| MSGPACK_FLAG_CONTAINER, .ucl_msgpack_parse_array⟩,
  ⟨0xd9, 8, .msgpack_str8, 1, 0, .ucl_msgpack_parse_string⟩,
  ⟨0xc4, 8, .msgpack_bin8, 1, 0, .ucl_msgpack_parse_string⟩,
  ⟨0xcf, 8, .msgpack_uint64, 8, MSGPACK_FLAG_FIXED, .ucl_msgpack_parse_int⟩,
  ⟨0xd3, 8, .msgpack_int64, 8, MSGPACK_FLAG_FIXED, .ucl_msgpack_parse_int⟩,
  ⟨0xce, 8, .msgpack_uint32, 4, MSGPACK_FLAG_FIXED, .ucl_msgpack_parse_int⟩,
  ⟨0xd2, 8, .msgpack_int32, 4, MSGPACK_FLAG_FIXED, .ucl_msgpack_parse_int⟩,
  ⟨0xcb, 8, .msgpack_float64, 8, MSGPACK_FLAG_FIXED, .ucl_msgpack_parse_float⟩,
  ⟨0xca, 8, .msgpack_float32, 4, MSGPACK_FLAG_FIXED, .ucl_msgpack_parse_float⟩,
  ⟨0xc2, 8, .msgpack_false, 1, MSGPACK_FLAG_FIXED ||| MSGPACK_FLAG_TYPEVALUE, .ucl_msgpack_parse_bool⟩,
  ⟨0xc3, 8, .msgpack_true, 1, MSGPACK_FLAG_FIXED ||| MSGPACK_FLAG_TYPEVALUE, .ucl_msgpack_parse_bool⟩,
  ⟨0xcc, 8, .msgpack_uint8, 1, MSGPACK_FLAG_FIXED, .ucl_msgpack_parse_int⟩,
  ⟨0xcd, 8, .msgpack_uint16, 2, MSGPACK_FLAG_FIXED, .ucl_msgpack_parse_int⟩,
  ⟨0xd0, 8, .msgpack_int8, 1, MSGPACK_FLAG_FIXED, .ucl_msgpack_parse_int⟩,
  ⟨0xd1, 8, .msgpack_int16, 2, MSGPACK_FLAG_FIXED, .ucl_msgpack_parse_int⟩,
  ⟨0xc0, 8, .msgpack_nil, 0, MSGPACK_FLAG_FIXED ||| MSGPACK_FLAG_TYPEVALUE, .ucl_msgpack_parse_null⟩,
  ⟨0xda, 8, .msgpack_str16, 2, 0, .ucl_msgpack_parse_string⟩,
  ⟨0xdb, 8, .msgpack_str32, 4, 0, .ucl_msgpack_parse_string⟩,
  ⟨0xc5, 8, .msgpack_bin16, 2, 0, .ucl_msgpack_parse_string⟩,
  ⟨0xc6, 8, .msgpack_bin32, 4, 0, .ucl_msgpack_parse_string⟩,
  ⟨0xdc, 8, .msgpack_array16, 2, MSGPACK_FLAG_CONTAINER, .ucl_msgpack_parse_array⟩,
  ⟨0xdd, 8, .msgpack_array32, 4, MSGPACK_FLAG_CONTAINER, .ucl_msgpack_parse_array⟩,
  ⟨0xde, 8, .msgpack_map16, 2, MSGPACK_FLAG_CONTAINER, .ucl_msgpack_parse_map⟩,
  ⟨0xdf, 8, .msgpack_map32, 4, MSGPACK_FLAG_CONTAINER, .ucl_msgpack_parse_map⟩,
  ⟨0xc7, 8, .msgpack_ext8, 1, MSGPACK_FLAG_EXT, .ucl_msgpack_parse_ignore⟩,
  ⟨0xc8, 8, .msgpack_ext16, 2, MSGPACK_FLAG_EXT, .ucl_msgpack_parse_ignore⟩,
  ⟨0xc9, 8, .msgpack_ext32, 4, MSGPACK_FLAG_EXT, .ucl_msgpack_parse_ignore⟩,
  ⟨0xd4, 8, .msgpack_fixext1, 1, MSGPACK_FLAG_FIXED ||| MSGPACK_FLAG_EXT, .ucl_msgpack_parse_ignore⟩,
  ⟨0xd5, 8, .msgpack_fixext2, 2, MSGPACK_FLAG_FIXED ||| MSGPACK_FLAG_EXT, .ucl_msgpack_parse_ignore⟩,
  ⟨0xd6, 8, .msgpack_fixext4, 4, MSGPACK_FLAG_FIXED ||| MSGPACK_FLAG_EXT, .ucl_msgpack_parse_ignore⟩,
  ⟨0xd7, 8, .msgpack_fixext8, 8, MSGPACK_FLAG_FIXED ||| MSGPACK_FLAG_EXT, .ucl_msgpack_parse_ignore⟩,
  ⟨0xd8, 8, .msgpack_fixext16, 16, MSGPACK_FLAG_FIXED ||| MSGPACK_FLAG_EXT, .ucl_msgpack_parse_ignore⟩]

/-- `CHAR_BIT` of `<limits.h>`. -/
def CHAR_BIT : Nat := 8

/-- The test of line 715 for one descriptor: with `shift = CHAR_BIT - prefixlen`
and `mask = prefix >> shift`, the condition `(mask & (t >> shift)) == mask`. -/
def ucl_msgpack_parser_t.accepts (d : ucl_msgpack_parser_t) (t : Nat) : Bool :=
  let shift := CHAR_BIT - d.prefixlen
  let mask := d.pfx >>> shift
  (mask &&& (t >>> shift)) == mask

/-- `ucl_msgpack_get_parser_from_type` (lines 706-721): the table is walked from
index 0 and the first descriptor passing the test of line 715 is returned;
`none` is the `NULL` of line 720. -/
def ucl_msgpack_get_parser_from_type (t : Nat) : Option ucl_msgpack_parser_t :=
  parsers.find? (fun d => d.accepts t)

/-! ## The decoder (lines 723-850) -/

/-- Modelled from the spec: the value tree node `ucl_object_t` of `ucl.h`, a
header outside `src/ucl_msgpack.c`. One constructor per variant of
section 3 of the specification; every node carries its optional key, strings
and keys are byte sequences, floating-point payloads are bit patterns. -/
inductive ucl_object_t where
  | UCL_OBJECT (key : Option (List Nat)) (children : List ucl_object_t)
  | UCL_ARRAY (key : Option (List Nat)) (children : List ucl_object_t)
  | UCL_INT (key : Option (List Nat)) (iv : Int)
  | UCL_FLOAT (key : Option (List Nat)) (dv : Nat)
  | UCL_STRING (key : Option (List Nat)) (sv : List Nat)
  | UCL_BOOLEAN (key : Option (List Nat)) (bv : Bool)
  | UCL_TIME (key : Option (List Nat)) (dv : Nat)
  | UCL_USERDATA (key : Option (List Nat)) (ud : List Nat)
  | UCL_NULL (key : Option (List Nat))

/-- The conditions the decoder records, one per format string it passes to
`ucl_create_err` (lines 748, 761, 780 and 844), with the arguments of the
format string. -/
inductive ucl_msgpack_error where
  /-- Message "unknown msgpack format: %x". -/
  | unknown_format (byte : Nat)
  /-- Message "not enough data remain to read object's length: %u remain, %u needed". -/
  | not_enough_data (remain : Nat) (needed : Nat)
  /-- Message "bad top level object for msgpack". -/
  | bad_top_level
deriving DecidableEq, Repr

/-- The input chunk `parser->chunks`: `begin` is the address of its first byte
and `data` are the bytes stored from there on; the member `remain` is their
number. -/
structure ucl_chunk where
  begin : Nat
  data : List Nat
deriving DecidableEq, Repr

/-- The member `remain` of the chunk. -/
def ucl_chunk.remain (c : ucl_chunk) : Nat :=
  c.data.length

/-- The read `*p` of the byte at address `p`; `none` when `p` lies outside the
chunk. -/
def ucl_chunk.deref (c : ucl_chunk) (p : Nat) : Option Nat :=
  if c.begin ≤ p then c.data[p - c.begin]? else none

/-- What `ucl_parse_msgpack` reads of the parser structure (`struct ucl_parser`
in the source): `stack` is
`parser->stack->obj`, or `none` when `parser->stack` is `NULL`. -/
structure ucl_parser_t where
  stack : Option ucl_object_t
  chunks : ucl_chunk

/-- The anonymous `enum` of lines 728-733. -/
inductive consume_state where
  | read_type
  | read_length
  | read_value
  | error_state
deriving DecidableEq, Repr

/-- The local variables of `ucl_msgpack_consume` that change in its loop
(lines 726-735); `len` is `none` as long as nothing has been stored in it. -/
structure consume_locals where
  p : Nat
  remain : Nat
  state : consume_state
  len : Option Nat
deriving DecidableEq, Repr

/-- Where a run of the decoder stands. -/
inductive consume_result where
  /-- The loop is at its head with these locals. -/
  | running (l : consume_locals)
  /-- The function has returned `ret`; `err` is the condition recorded by
  `ucl_create_err` during the call, `container` the container after the call. -/
  | returned (ret : Bool) (err : Option ucl_msgpack_error) (container : Option ucl_object_t)
  /-- A byte outside the chunk has been read. -/
  | out_of_bounds
  /-- An `assert` has failed. -/
  | assert_failed

/-- Lines 769-775: a fixed format that is not a type-value steps over its lead
byte when `remain > 0`; then the `break` of line 812. -/
def consume_fixed_advance (obj_parser_p : ucl_msgpack_parser_t) (l : consume_locals) :
    consume_result :=
  if obj_parser_p.flags &&& MSGPACK_FLAG_TYPEVALUE = 0 then
    if l.remain > 0 then
      .running { l with p := l.p + 1, remain := l.remain - 1 }
    else
      .running l
  else
    .running l

/-- Lines 753-812: the part of `case read_type` after the classification, for
the descriptor `obj_parser_p`. In the branch without the fixed flag the `size_t`
decrements wrap modulo `2 ^ 64`, and `FROM_BE16`, `FROM_BE32` and `FROM_BE64`
are applied, as in the source, to the pointer `p` itself. -/
def consume_read_type (h : host_endian) (c : ucl_chunk) (container : Option ucl_object_t)
    (obj_parser_p : ucl_msgpack_parser_t) (l : consume_locals) : consume_result :=
  if obj_parser_p.flags &&& MSGPACK_FLAG_FIXED ≠ 0 then
    if obj_parser_p.len = 0 then
      match c.deref l.p with
      | none => .out_of_bounds
      | some t =>
        consume_fixed_advance obj_parser_p
          { l with len := some (t &&& (0xffffffff - obj_parser_p.pfx)) }
    else if l.remain < obj_parser_p.len then
      .returned false (some (.not_enough_data (l.remain % 2 ^ 32) obj_parser_p.len)) container
    else
      consume_fixed_advance obj_parser_p l
  else
    if l.remain < obj_parser_p.len then
      .returned false (some (.not_enough_data (l.remain % 2 ^ 32) obj_parser_p.len)) container
    else
      let p1 := l.p + 1
      let remain1 := (l.remain + 2 ^ 64 - 1) % 2 ^ 64
      let p2 := p1 + obj_parser_p.len
      let remain2 := (remain1 + 2 ^ 64 - obj_parser_p.len) % 2 ^ 64
      if obj_parser_p.len = 1 then
        match c.deref p1 with
        | none => .out_of_bounds
        | some t => .running { l with p := p2, remain := remain2, len := some t }
      else if obj_parser_p.len = 2 then
        .running { l with p := p2, remain := remain2, len := some (FROM_BE16 h (p1 % 2 ^ 16)) }
      else if obj_parser_p.len = 4 then
        .running { l with p := p2, remain := remain2, len := some (FROM_BE32 h (p1 % 2 ^ 32)) }
      else if obj_parser_p.len = 8 then
        .running { l with p := p2, remain := remain2, len := some (FROM_BE64 h (p1 % 2 ^ 64)) }
      else
        .assert_failed

/-- One pass through the body of the `while` loop (lines 743-813): the `switch`
has the single label `read_type`, so in any other state the body does nothing. -/
def consume_body (h : host_endian) (c : ucl_chunk) (container : Option ucl_object_t)
    (l : consume_locals) : consume_result :=
  match l.state with
  | .read_type =>
    match c.deref l.p with
    | none => .out_of_bounds
    | some t =>
      match ucl_msgpack_get_parser_from_type t with
      | none => .returned false (some (.unknown_format t)) container
      | some obj_parser_p => consume_read_type h c container obj_parser_p l
  | _ => .running l

/-- The loop `while (p < end)` of lines 742-814 followed by the `return false`
of line 816, run for at most `n` passes from the locals `l`; `end` is
`begin + remain` as computed at line 739. The result is `running` when the
loop has not been left after `n` passes. -/
def consume_loop (h : host_endian) (c : ucl_chunk) (container : Option ucl_object_t) :
    Nat → consume_locals → consume_result
  | 0, l => .running l
  | n + 1, l =>
    if l.p < c.begin + c.remain then
      match consume_body h c container l with
      | .running l1 => consume_loop h c container n l1
      | r => r
    else
      .returned false none container

/-- The locals at the entry of the loop (lines 733-739). -/
def consume_init (c : ucl_chunk) : consume_locals :=
  { p := c.begin, remain := c.remain, state := .read_type, len := none }

/-- `ucl_msgpack_consume` (lines 723-817) with `fuel` bounding the number of
passes through the loop: `none` when the function has not returned within
`fuel` passes. -/
def ucl_msgpack_consume (h : host_endian) (fuel : Nat) (parser : ucl_parser_t)
    (container : Option ucl_object_t) : Option consume_result :=
  match consume_loop h parser.chunks container fuel (consume_init parser.chunks) with
  | .running _ => none
  | r => some r

/-- `ucl_parse_msgpack` (lines 819-850), with the same `fuel`. The parser and
its chunk exist (the first three `assert`s); the fourth `assert` is checked. -/
def ucl_parse_msgpack (h : host_endian) (fuel : Nat) (parser : ucl_parser_t) :
    Option consume_result :=
  if parser.chunks.remain = 0 then
    some .assert_failed
  else
    match parser.chunks.deref parser.chunks.begin with
    | none => some .out_of_bounds
    | some t =>
      let container := parser.stack
      if container.isNone ∧ (t &&& 0x80 ≠ 0x80 ∧ ¬ (t ≥ 0xdc ∧ t ≤ 0xdf)) then
        some (.returned false (some .bad_top_level) none)
      else
        ucl_msgpack_consume h fuel parser container

/-! ## Reference definitions taken from the specification

The definitions of this section follow the wording of the specification, not
the code; the code is compared with them below. -/

/-- Value of a payload read as a big-endian unsigned number. -/
def be_value (payload : List Nat) : Nat :=
  payload.foldl (fun acc b => acc * 256 + b) 0

/-- Sign extension of a `width`-bit two's-complement pattern. -/
def sign_extend (width : Nat) (v : Nat) : Int :=
  if v ≥ 2 ^ (width - 1) then (v : Int) - 2 ^ width else v

/-- The integer a MessagePack integer encoding stands for: a positive fixint is
the byte, a negative fixint the byte minus 256, `uint8/16/32/64` the
zero-extended big-endian payload, `int8/16/32/64` the sign-extended big-endian
payload; `none` for a byte sequence that is not a well-formed integer
encoding. -/
def msgpack_int_value (bytes : List Nat) : Option Int :=
  match bytes with
  | [] => none
  | tag :: payload =>
    if ¬ (tag < 256 ∧ ∀ b ∈ payload, b < 256) then none
    else if payload.length = 0 then
      if tag ≤ 0x7f then some (tag : Int)
      else if 0xe0 ≤ tag then some ((tag : Int) - 256)
      else none
    else if tag = 0xcc ∧ payload.length = 1 then some (be_value payload : Int)
    else if tag = 0xcd ∧ payload.length = 2 then some (be_value payload : Int)
    else if tag = 0xce ∧ payload.length = 4 then some (be_value payload : Int)
    else if tag = 0xcf ∧ payload.length = 8 then some (be_value payload : Int)
    else if tag = 0xd0 ∧ payload.length = 1 then some (sign_extend 8 (be_value payload))
    else if tag = 0xd1 ∧ payload.length = 2 then some (sign_extend 16 (be_value payload))
    else if tag = 0xd2 ∧ payload.length = 4 then some (sign_extend 32 (be_value payload))
    else if tag = 0xd3 ∧ payload.length = 8 then some (sign_extend 64 (be_value payload))
    else none

/-- The least length of a MessagePack integer encoding of `n`, as the
specification tabulates it: 1 for -32..127, 2 for -128..-33 and 128..255, 3 for
-32768..-129 and 256..65535, 5 for -2^31..-32769 and 65536..2^32-1, 9
otherwise. -/
def msgpack_min_int_len (n : Int) : Nat :=
  if -32 ≤ n ∧ n ≤ 127 then 1
  else if -128 ≤ n ∧ n ≤ 255 then 2
  else if -32768 ≤ n ∧ n ≤ 65535 then 3
  else if -2 ^ 31 ≤ n ∧ n ≤ 2 ^ 32 - 1 then 5
  else 9

/-- Classification as the specification words it: the first descriptor of the
table, in table order, whose top `prefixlen` bits equal the top `prefixlen`
bits of the lead byte `t`. -/
def classify_by_top_bits (t : Nat) : Option ucl_msgpack_parser_t :=
  parsers.find? (fun d => (t >>> (CHAR_BIT - d.prefixlen)) == (d.pfx >>> (CHAR_BIT - d.prefixlen)))

/-- The `width` bytes of `v`, most significant byte first ("big-endian"). -/
def big_endian_bytes (width : Nat) (v : Nat) : List Nat :=
  ((List.range width).map (fun i => v / 256 ^ i % 256)).reverse

/-- The encoding the specification prescribes for a non-negative integer `n`:
`[n]` up to 127, `[0xcc, n]` up to 255, `0xcd` and 2 big-endian bytes up to
65535, `0xce` and 4 big-endian bytes up to `2 ^ 32 - 1`, otherwise `0xcf` and 8
big-endian bytes. -/
def msgpack_uint_encoding (n : Nat) : List Nat :=
  if n ≤ 127 then [n]
  else if n ≤ 255 then [0xcc, n]
  else if n ≤ 65535 then 0xcd :: big_endian_bytes 2 n
  else if n ≤ 2 ^ 32 - 1 then 0xce :: big_endian_bytes 4 n
  else 0xcf :: big_endian_bytes 8 n

/-- The string header the specification prescribes for a length `L`:
`[0xa0 | L]` up to 31, `[0xd9, L]` up to 255, `0xda` and 2 big-endian bytes up
to 65535, otherwise `0xdb` and 4 big-endian bytes. -/
def msgpack_str_header (L : Nat) : List Nat :=
  if L ≤ 31 then [0xa0 ||| L]
  else if L ≤ 255 then [0xd9, L]
  else if L ≤ 65535 then 0xda :: big_endian_bytes 2 L
  else 0xdb :: big_endian_bytes 4 L

/-- The container header the specification prescribes for a count `c`, given
the fixed tag and the 16-bit and 32-bit tags of the container kind:
`[fix | c]` up to 15, the 16-bit tag and 2 big-endian bytes up to 65535,
otherwise the 32-bit tag and 4 big-endian bytes. -/
def msgpack_container_header (fix tag16 tag32 c : Nat) : List Nat :=
  if c ≤ 15 then [fix ||| c]
  else if c ≤ 65535 then tag16 :: big_endian_bytes 2 c
  else tag32 :: big_endian_bytes 4 c

/-- Exact prefix comparison, as the specification words it: the top `prefixlen`
bits of the byte `t` equal the top `prefixlen` bits of the prefix of `d`. -/
def top_bits_equal (d : ucl_msgpack_parser_t) (t : Nat) : Bool :=
  (t >>> (CHAR_BIT - d.prefixlen)) == (d.pfx >>> (CHAR_BIT - d.prefixlen))

/-- The byte ranges `0xa0..0xbf` and `0xe0..0xff`. -/
def in_skipped_range (t : Nat) : Bool :=
  (0xa0 ≤ t && t ≤ 0xbf) || (0xe0 ≤ t && t ≤ 0xff)

/-! ## Auxiliary definitions -/

/-- The first entry of `parsers`, the descriptor of `fixstr`. -/
def fixstr_entry : ucl_msgpack_parser_t :=
  ⟨0xa0, 3, .msgpack_fixstr, 0, MSGPACK_FLAG_FIXED, .ucl_msgpack_parse_string⟩

/-- The second entry of `parsers`, the descriptor of the positive fixint. -/
def positive_fixint_entry : ucl_msgpack_parser_t :=
  ⟨0x0, 1, .msgpack_positive_fixint, 0, MSGPACK_FLAG_FIXED ||| MSGPACK_FLAG_TYPEVALUE,
    .ucl_msgpack_parse_int⟩

/-- Invariant of the loop of `ucl_msgpack_consume`: the read position lies
between the start and the end of the chunk, `remain` counts the bytes from the
read position to the end, and the state is `read_type`. -/
def consume_inv (c : ucl_chunk) (l : consume_locals) : Prop :=
  c.begin ≤ l.p ∧ l.p ≤ c.begin + c.remain ∧ l.remain = c.remain - (l.p - c.begin) ∧
    l.state = .read_type

/-- The bytes the emitter functions append for the object with the single member
`"a": 1`: the object header for one pair, the key `"a"` with `print_key` set,
the integer 1. -/
def emitted_object_a_1 (h : host_endian) : List Nat :=
  ucl_emitter_print_int_msgpack h
    (ucl_emitter_print_key_msgpack h true (ucl_emitter_print_object_msgpack h [] 1) [0x61] 1) 1

/-- The table entry of `str8`. -/
def str8_entry : ucl_msgpack_parser_t :=
  ⟨0xd9, 8, .msgpack_str8, 1, 0, .ucl_msgpack_parse_string⟩

/-- The table entry of `str16`. -/
def str16_entry : ucl_msgpack_parser_t :=
  ⟨0xda, 8, .msgpack_str16, 2, 0, .ucl_msgpack_parse_string⟩

/-- The bytes `ucl_emitter_print_int_msgpack` appends for `val`, read off the
branches of lines 110-178 in a form that does not depend on the host: the
non-negative branch, then the negative branch with the magnitude `-val`. -/
def int_emitted_bytes (val : Int) : List Nat :=
  if 0 ≤ val then msgpack_uint_encoding val.toNat
  else if -32 ≤ val then [(0xe0 ||| ((-val).toNat &&& 0xff)) % 256]
  else if (-val).toNat ≤ 0xff then [0xd0, (val % 2 ^ 8).toNat]
  else if (-val).toNat ≤ 0xffff then 0xd1 :: big_endian_bytes 2 (val % 2 ^ 16).toNat
  else if (-val).toNat ≤ 0xffffffff then 0xd2 :: big_endian_bytes 4 (val % 2 ^ 32).toNat
  else 0xd3 :: big_endian_bytes 8 (val % 2 ^ 64).toNat

/-- The integer for which `ucl_emitter_print_int_msgpack` emits the given bytes:
the inverse of the emitter on what it emits (not the MessagePack value, from
which it differs on the negative forms). -/
def int_of_emitted (bytes : List Nat) : Int :=
  match bytes with
  | [] => 0
  | tag :: payload =>
    if tag ≤ 0x7f then (tag : Int)
    else if 0xe0 < tag then -((tag : Int) - 0xe0)
    else if tag = 0xe0 then -32
    else if tag = 0xcc ∨ tag = 0xcd ∨ tag = 0xce ∨ tag = 0xcf then (be_value payload : Int)
    else (be_value payload : Int) - 256 ^ payload.length

/-- The total length of an emitted integer encoding as a function of its first
byte: 1 for the fixints, 2 for `0xcc` and `0xd0`, 3 for `0xcd` and `0xd1`, 5 for
`0xce` and `0xd2`, 9 otherwise. -/
def int_length_of_lead (lead : Nat) : Nat :=
  if lead ≤ 0x7f ∨ 0xe0 ≤ lead then 1
  else if lead = 0xcc ∨ lead = 0xd0 then 2
  else if lead = 0xcd ∨ lead = 0xd1 then 3
  else if lead = 0xce ∨ lead = 0xd2 then 5
  else 9

/-! ## Auxiliary facts -/

/-- The test of line 715 holds of the positive fixint entry for every byte: its
mask is 0. -/
theorem positive_fixint_entry_accepts (t : Nat) : positive_fixint_entry.accepts t = true := by
  simp [positive_fixint_entry, ucl_msgpack_parser_t.accepts, CHAR_BIT]

/-- The classifier returns the first entry when its test holds and the second
entry otherwise: no other entry of the table is ever reached. -/
theorem get_parser_from_type_eq (t : Nat) :
    ucl_msgpack_get_parser_from_type t =
      if fixstr_entry.accepts t then some fixstr_entry else some positive_fixint_entry := by
  have h1 := positive_fixint_entry_accepts t
  unfold ucl_msgpack_get_parser_from_type parsers
  rw [List.find?_cons]
  by_cases h0 : fixstr_entry.accepts t = true
  · have h0' := h0
    unfold fixstr_entry at h0'
    rw [h0', if_pos h0]
    rfl
  · have h0' : fixstr_entry.accepts t = false := by simpa using h0
    have h0'' := h0'
    unfold fixstr_entry at h0''
    rw [h0'', if_neg h0, List.find?_cons]
    unfold positive_fixint_entry at h1
    rw [h1]
    rfl

/-- A pass of the loop at a byte the first entry does not accept changes
nothing but `len`. -/
theorem body_of_not_fixstr (h : host_endian) (c : ucl_chunk) (container : Option ucl_object_t)
    (l : consume_locals) (t : Nat) (hs : l.state = .read_type) (hd : c.deref l.p = some t)
    (ht : fixstr_entry.accepts t = false) :
    consume_body h c container l = .running { l with len := some (t &&& (0xffffffff - 0)) } := by
  unfold consume_body
  rw [hs]
  simp only [hd, get_parser_from_type_eq, ht]
  simp [consume_read_type, positive_fixint_entry, consume_fixed_advance, hd,
    MSGPACK_FLAG_FIXED, MSGPACK_FLAG_TYPEVALUE, hs]

/-- A pass of the loop at a byte the first entry accepts steps over that byte. -/
theorem body_of_fixstr (h : host_endian) (c : ucl_chunk) (container : Option ucl_object_t)
    (l : consume_locals) (t : Nat) (hs : l.state = .read_type) (hd : c.deref l.p = some t)
    (ht : fixstr_entry.accepts t = true) (hr : 0 < l.remain) :
    consume_body h c container l =
      .running { l with p := l.p + 1, remain := l.remain - 1,
                        len := some (t &&& (0xffffffff - 0xa0)) } := by
  unfold consume_body
  rw [hs]
  simp only [hd, get_parser_from_type_eq, ht]
  simp [consume_read_type, fixstr_entry, consume_fixed_advance, hd, MSGPACK_FLAG_FIXED,
    MSGPACK_FLAG_TYPEVALUE, hr, hs]

/-- A read fails exactly at the addresses outside the chunk. -/
theorem deref_eq_none_iff (c : ucl_chunk) (p : Nat) :
    c.deref p = none ↔ (p < c.begin ∨ c.begin + c.remain ≤ p) := by
  unfold ucl_chunk.deref ucl_chunk.remain
  by_cases hb : c.begin ≤ p
  · simp only [hb, if_true, List.getElem?_eq_none_iff]
    omega
  · simp only [hb, if_false, true_iff]
    omega

/-- A read inside the chunk yields a byte. -/
theorem deref_of_lt (c : ucl_chunk) (p : Nat) (h1 : c.begin ≤ p)
    (h2 : p < c.begin + c.remain) : ∃ t, c.deref p = some t := by
  cases hd : c.deref p with
  | some t => exact ⟨t, rfl⟩
  | none =>
    have := (deref_eq_none_iff c p).1 hd
    omega

/-- One pass of the loop keeps the invariant and leaves the function running. -/
theorem body_preserves_inv (h : host_endian) (c : ucl_chunk) (container : Option ucl_object_t)
    (l : consume_locals) (hi : consume_inv c l) (hp : l.p < c.begin + c.remain) :
    ∃ l1, consume_body h c container l = .running l1 ∧ consume_inv c l1 := by
  obtain ⟨h1, h2, h3, h4⟩ := hi
  obtain ⟨t, hd⟩ := deref_of_lt c l.p h1 hp
  by_cases ht : fixstr_entry.accepts t = true
  · refine ⟨_, body_of_fixstr h c container l t h4 hd ht (by omega), ?_⟩
    refine ⟨?_, ?_, ?_, h4⟩ <;> simp only <;> omega
  · have ht' : fixstr_entry.accepts t = false := by simpa using ht
    exact ⟨_, body_of_not_fixstr h c container l t h4 hd ht', h1, h2, h3, h4⟩

/-- From locals satisfying the invariant, any number of passes ends either at
the loop head with the invariant, or in the `return false` of line 816. -/
theorem loop_preserves_inv (h : host_endian) (c : ucl_chunk) (container : Option ucl_object_t)
    (n : Nat) : ∀ l, consume_inv c l →
      (∃ l1, consume_loop h c container n l = .running l1 ∧ consume_inv c l1) ∨
      consume_loop h c container n l = .returned false none container := by
  induction n with
  | zero => intro l hi; exact Or.inl ⟨l, rfl, hi⟩
  | succ n ih =>
    intro l hi
    unfold consume_loop
    by_cases hp : l.p < c.begin + c.remain
    · obtain ⟨l1, hb, hi1⟩ := body_preserves_inv h c container l hi hp
      simp only [hp, if_true, hb]
      exact ih l1 hi1
    · simp only [hp, if_false]
      exact Or.inr trivial

/-- The locals at the entry of the loop satisfy the invariant. -/
theorem consume_init_inv (c : ucl_chunk) : consume_inv c (consume_init c) := by
  refine ⟨?_, ?_, ?_, rfl⟩ <;> simp [consume_init]

/-- At a byte the first entry does not accept the loop never leaves its head. -/
theorem loop_stuck (h : host_endian) (c : ucl_chunk) (container : Option ucl_object_t)
    (t : Nat) (ht : fixstr_entry.accepts t = false) (n : Nat) :
    ∀ l, l.state = .read_type → l.p < c.begin + c.remain → c.deref l.p = some t →
      ∃ l1, consume_loop h c container n l = .running l1 := by
  induction n with
  | zero => intro l _ _ _; exact ⟨l, rfl⟩
  | succ n ih =>
    intro l hs hp hd
    unfold consume_loop
    simp only [hp, if_true, body_of_not_fixstr h c container l t hs hd ht]
    exact ih _ hs hp hd

/-- When the first byte passes the top-level test and is not accepted by the
first entry, `ucl_parse_msgpack` does not return, whatever the fuel. -/
theorem parse_stuck (h : host_endian) (fuel : Nat) (parser : ucl_parser_t) (t : Nat)
    (hd : parser.chunks.deref parser.chunks.begin = some t)
    (htop : parser.stack.isSome ∨ t &&& 0x80 = 0x80)
    (ht : fixstr_entry.accepts t = false) :
    ucl_parse_msgpack h fuel parser = none := by
  have hrem : parser.chunks.remain ≠ 0 := by
    intro h0
    have := (deref_eq_none_iff parser.chunks parser.chunks.begin).2 (Or.inr (by omega))
    rw [hd] at this
    exact absurd this (by simp)
  have hlt : parser.chunks.begin < parser.chunks.begin + parser.chunks.remain := by omega
  obtain ⟨l1, hl⟩ := loop_stuck h parser.chunks parser.stack t ht fuel
    (consume_init parser.chunks) rfl hlt hd
  unfold ucl_parse_msgpack
  simp only [hrem, if_false, hd]
  have hcond : ¬ (parser.stack.isNone ∧ (t &&& 0x80 ≠ 0x80 ∧ ¬ (t ≥ 0xdc ∧ t ≤ 0xdf))) := by
    rcases htop with hs | hb
    · intro hc
      cases hst : parser.stack <;> simp_all
    · intro hc
      exact hc.2.1 hb
  rw [if_neg hcond]
  unfold ucl_msgpack_consume
  rw [hl]

/-- The first byte of a chunk is read at its start address. -/
theorem deref_begin_cons (begin t : Nat) (rest : List Nat) :
    (ucl_chunk.mk begin (t :: rest)).deref begin = some t := by
  simp [ucl_chunk.deref]

/-- The bytes appended for the object with the single member `"a": 1`. -/
theorem emitted_object_a_1_eq (h : host_endian) :
    emitted_object_a_1 h = [0x81, 0xa1, 0x61, 0x01] := by
  cases h <;> decide

/-- No 1-byte or 2-byte MessagePack integer encoding stands for -200. -/
theorem int_value_minus_200_length (bs : List Nat)
    (hv : msgpack_int_value bs = some (-200)) : 3 ≤ bs.length := by
  match bs, hv with
  | [], hv => simp [msgpack_int_value] at hv
  | [t], hv =>
    simp only [msgpack_int_value, List.length_nil, List.length_cons] at hv
    split_ifs at hv
    all_goals simp at hv
    all_goals omega
  | [t, b], hv =>
    simp [msgpack_int_value, be_value, sign_extend] at hv
    split_ifs at hv
    all_goals simp at hv
    all_goals omega
  | _ :: _ :: _ :: _, _ => simp

/-- A buffer whose first byte has its top bit set passes the top-level test of
`ucl_parse_msgpack`, which then runs `ucl_msgpack_consume`. -/
theorem parse_enters_consume (h : host_endian) (fuel begin t : Nat) (rest : List Nat)
    (htop : t &&& 0x80 = 0x80) :
    ucl_parse_msgpack h fuel ⟨none, ⟨begin, t :: rest⟩⟩
      = ucl_msgpack_consume h fuel ⟨none, ⟨begin, t :: rest⟩⟩ none := by
  unfold ucl_parse_msgpack
  simp only [deref_begin_cons, ucl_chunk.remain, List.length_cons]
  rw [if_neg (by omega), if_neg (fun hc => hc.2.1 htop)]

/-- On a one-byte chunk whose byte the first entry accepts, the loop steps over
the byte and `ucl_msgpack_consume` returns `false` with no error recorded. -/
theorem consume_single_fixstr (h : host_endian) (begin t : Nat)
    (container : Option ucl_object_t) (ht : fixstr_entry.accepts t = true) :
    ucl_msgpack_consume h 2 ⟨none, ⟨begin, [t]⟩⟩ container
      = some (.returned false none container) := by
  have hb := body_of_fixstr h ⟨begin, [t]⟩ container (consume_init ⟨begin, [t]⟩) t rfl
    (deref_begin_cons begin t []) ht (by simp [consume_init, ucl_chunk.remain])
  have h2 : consume_loop h ⟨begin, [t]⟩ container 2 (consume_init ⟨begin, [t]⟩)
      = .returned false none container := by
    rw [consume_loop, if_pos (by simp [consume_init, ucl_chunk.remain]), hb]
    simp only
    rw [consume_loop, if_neg (by simp [consume_init, ucl_chunk.remain])]
  unfold ucl_msgpack_consume
  simp only [h2]

/-! ## Auxiliary facts on byte order -/

/-- Masking with one byte at bit position `k`. -/
theorem and_byte_mask (v k : Nat) : v &&& (255 * 2 ^ k) = (v / 2 ^ k % 256) * 2 ^ k := by
  apply Nat.eq_of_testBit_eq
  intro i
  rw [← Nat.shiftLeft_eq, ← Nat.shiftLeft_eq, ← Nat.shiftRight_eq_div_pow]
  have h255 : (255 : Nat) = 2 ^ 8 - 1 := by norm_num
  have h256 : (256 : Nat) = 2 ^ 8 := by norm_num
  rw [h255, h256]
  simp only [Nat.testBit_and, Nat.testBit_shiftLeft, Nat.testBit_two_pow_sub_one,
    Nat.testBit_mod_two_pow, Nat.testBit_shiftRight]
  by_cases hik : k ≤ i
  · have : k + (i - k) = i := by omega
    simp [hik, this, Bool.and_comm]
  · simp [hik]

/-- A multiple of `2 ^ i` and a number below `2 ^ i` have no bit in common. -/
theorem or_eq_add (x y i : Nat) (hx : 2 ^ i ∣ x) (hy : y < 2 ^ i) : x ||| y = x + y := by
  obtain ⟨a, rfl⟩ := hx
  exact (Nat.mul_add_lt_is_or hy a).symm

/-- The mask selecting byte 0. -/
theorem and_mask_byte0 (v : Nat) : v &&& 0x00000000000000ff = v % 256 := by
  have := and_byte_mask v 0
  norm_num at this ⊢
  exact this

/-- The mask selecting byte 1. -/
theorem and_mask_byte1 (v : Nat) : v &&& 0x000000000000ff00 = v / 256 % 256 * 256 := by
  have := and_byte_mask v 8
  norm_num at this ⊢
  exact this

/-- The mask selecting byte 2. -/
theorem and_mask_byte2 (v : Nat) : v &&& 0x0000000000ff0000 = v / 65536 % 256 * 65536 := by
  have := and_byte_mask v 16
  norm_num at this ⊢
  exact this

/-- The mask selecting byte 3. -/
theorem and_mask_byte3 (v : Nat) : v &&& 0x00000000ff000000 = v / 16777216 % 256 * 16777216 := by
  have := and_byte_mask v 24
  norm_num at this ⊢
  exact this

/-- The mask selecting byte 4. -/
theorem and_mask_byte4 (v : Nat) : v &&& 0x000000ff00000000 = v / 4294967296 % 256 * 4294967296 := by
  have := and_byte_mask v 32
  norm_num at this ⊢
  exact this

/-- The mask selecting byte 5. -/
theorem and_mask_byte5 (v : Nat) : v &&& 0x0000ff0000000000 = v / 1099511627776 % 256 * 1099511627776 := by
  have := and_byte_mask v 40
  norm_num at this ⊢
  exact this

/-- The mask selecting byte 6. -/
theorem and_mask_byte6 (v : Nat) : v &&& 0x00ff000000000000 = v / 281474976710656 % 256 * 281474976710656 := by
  have := and_byte_mask v 48
  norm_num at this ⊢
  exact this

/-- The mask selecting byte 7. -/
theorem and_mask_byte7 (v : Nat) : v &&& 0xff00000000000000 = v / 72057594037927936 % 256 * 72057594037927936 := by
  have := and_byte_mask v 56
  norm_num at this ⊢
  exact this

/-- `SWAP_LE_BE16` exchanges the two bytes of a 16-bit value. -/
theorem swap16_eq (v : Nat) (hv : v < 2 ^ 16) :
    SWAP_LE_BE16 v = v % 256 * 256 + v / 256 % 256 := by
  unfold SWAP_LE_BE16
  simp only [Nat.shiftLeft_eq, Nat.shiftRight_eq_div_pow, Nat.mod_eq_of_lt hv]
  have h1 : v * 2 ^ 8 % 2 ^ 16 = v % 256 * 256 := by omega
  have h2 : v / 2 ^ 8 % 2 ^ 16 = v / 256 % 256 := by omega
  rw [h1, h2, Nat.lor_comm, or_eq_add _ _ 8 (by omega) (by omega)]
  omega

/-- `SWAP_LE_BE32` reverses the 4 bytes of a 32-bit value. -/
theorem swap32_eq (v : Nat) (hv : v < 2 ^ 32) :
    SWAP_LE_BE32 v = v % 256 * 16777216 + v / 256 % 256 * 65536 + v / 65536 % 256 * 256 + v / 16777216 % 256 := by
  unfold SWAP_LE_BE32
  simp only [Nat.mod_eq_of_lt hv, and_mask_byte0, and_mask_byte1, and_mask_byte2, and_mask_byte3,
    Nat.shiftLeft_eq, Nat.shiftRight_eq_div_pow]
  have h0 : v % 256 * 2 ^ 24 % 2 ^ 32 = v % 256 * 16777216 := by omega
  have h1 : v / 256 % 256 * 256 * 2 ^ 8 % 2 ^ 32 = v / 256 % 256 * 65536 := by omega
  have h2 : v / 65536 % 256 * 65536 / 2 ^ 8 = v / 65536 % 256 * 256 := by omega
  have h3 : v / 16777216 % 256 * 16777216 / 2 ^ 24 = v / 16777216 % 256 := by omega
  rw [h0, h1, h2, h3]
  have e1 : v % 256 * 16777216 ||| v / 256 % 256 * 65536
      = v % 256 * 16777216 + v / 256 % 256 * 65536 :=
    or_eq_add _ _ 24 (by omega) (by omega)
  rw [e1]
  have e2 : (v % 256 * 16777216 + v / 256 % 256 * 65536) ||| v / 65536 % 256 * 256
      = v % 256 * 16777216 + v / 256 % 256 * 65536 + v / 65536 % 256 * 256 :=
    or_eq_add _ _ 16 (by omega) (by omega)
  rw [e2]
  have e3 : (v % 256 * 16777216 + v / 256 % 256 * 65536 + v / 65536 % 256 * 256) ||| v / 16777216 % 256
      = v % 256 * 16777216 + v / 256 % 256 * 65536 + v / 65536 % 256 * 256 + v / 16777216 % 256 :=
    or_eq_add _ _ 8 (by omega) (by omega)
  rw [e3]
  omega

/-- `SWAP_LE_BE64` reverses the 8 bytes of a 64-bit value. -/
theorem swap64_eq (v : Nat) (hv : v < 2 ^ 64) :
    SWAP_LE_BE64 v = v % 256 * 72057594037927936 + v / 256 % 256 * 281474976710656 + v / 65536 % 256 * 1099511627776 + v / 16777216 % 256 * 4294967296 + v / 4294967296 % 256 * 16777216 + v / 1099511627776 % 256 * 65536 + v / 281474976710656 % 256 * 256 + v / 72057594037927936 % 256 := by
  unfold SWAP_LE_BE64
  simp only [Nat.mod_eq_of_lt hv, and_mask_byte0, and_mask_byte1, and_mask_byte2, and_mask_byte3, and_mask_byte4, and_mask_byte5, and_mask_byte6, and_mask_byte7,
    Nat.shiftLeft_eq, Nat.shiftRight_eq_div_pow]
  have h0 : v % 256 * 2 ^ 56 % 2 ^ 64 = v % 256 * 72057594037927936 := by omega
  have h1 : v / 256 % 256 * 256 * 2 ^ 40 % 2 ^ 64 = v / 256 % 256 * 281474976710656 := by omega
  have h2 : v / 65536 % 256 * 65536 * 2 ^ 24 % 2 ^ 64 = v / 65536 % 256 * 1099511627776 := by omega
  have h3 : v / 16777216 % 256 * 16777216 * 2 ^ 8 % 2 ^ 64 = v / 16777216 % 256 * 4294967296 := by omega
  have h4 : v / 4294967296 % 256 * 4294967296 / 2 ^ 8 = v / 4294967296 % 256 * 16777216 := by omega
  have h5 : v / 1099511627776 % 256 * 1099511627776 / 2 ^ 24 = v / 1099511627776 % 256 * 65536 := by omega
  have h6 : v / 281474976710656 % 256 * 281474976710656 / 2 ^ 40 = v / 281474976710656 % 256 * 256 := by omega
  have h7 : v / 72057594037927936 % 256 * 72057594037927936 / 2 ^ 56 = v / 72057594037927936 % 256 := by omega
  rw [h0, h1, h2, h3, h4, h5, h6, h7]
  have e1 : v % 256 * 72057594037927936 ||| v / 256 % 256 * 281474976710656
      = v % 256 * 72057594037927936 + v / 256 % 256 * 281474976710656 :=
    or_eq_add _ _ 56 (by omega) (by omega)
  rw [e1]
  have e2 : (v % 256 * 72057594037927936 + v / 256 % 256 * 281474976710656) ||| v / 65536 % 256 * 1099511627776
      = v % 256 * 72057594037927936 + v / 256 % 256 * 281474976710656 + v / 65536 % 256 * 1099511627776 :=
    or_eq_add _ _ 48 (by omega) (by omega)
  rw [e2]
  have e3 : (v % 256 * 72057594037927936 + v / 256 % 256 * 281474976710656 + v / 65536 % 256 * 1099511627776) ||| v / 16777216 % 256 * 4294967296
      = v % 256 * 72057594037927936 + v / 256 % 256 * 281474976710656 + v / 65536 % 256 * 1099511627776 + v / 16777216 % 256 * 4294967296 :=
    or_eq_add _ _ 40 (by omega) (by omega)
  rw [e3]
  have e4 : (v % 256 * 72057594037927936 + v / 256 % 256 * 281474976710656 + v / 65536 % 256 * 1099511627776 + v / 16777216 % 256 * 4294967296) ||| v / 4294967296 % 256 * 16777216
      = v % 256 * 72057594037927936 + v / 256 % 256 * 281474976710656 + v / 65536 % 256 * 1099511627776 + v / 16777216 % 256 * 4294967296 + v / 4294967296 % 256 * 16777216 :=
    or_eq_add _ _ 32 (by omega) (by omega)
  rw [e4]
  have e5 : (v % 256 * 72057594037927936 + v / 256 % 256 * 281474976710656 + v / 65536 % 256 * 1099511627776 + v / 16777216 % 256 * 4294967296 + v / 4294967296 % 256 * 16777216) ||| v / 1099511627776 % 256 * 65536
      = v % 256 * 72057594037927936 + v / 256 % 256 * 281474976710656 + v / 65536 % 256 * 1099511627776 + v / 16777216 % 256 * 4294967296 + v / 4294967296 % 256 * 16777216 + v / 1099511627776 % 256 * 65536 :=
    or_eq_add _ _ 24 (by omega) (by omega)
  rw [e5]
  have e6 : (v % 256 * 72057594037927936 + v / 256 % 256 * 281474976710656 + v / 65536 % 256 * 1099511627776 + v / 16777216 % 256 * 4294967296 + v / 4294967296 % 256 * 16777216 + v / 1099511627776 % 256 * 65536) ||| v / 281474976710656 % 256 * 256
      = v % 256 * 72057594037927936 + v / 256 % 256 * 281474976710656 + v / 65536 % 256 * 1099511627776 + v / 16777216 % 256 * 4294967296 + v / 4294967296 % 256 * 16777216 + v / 1099511627776 % 256 * 65536 + v / 281474976710656 % 256 * 256 :=
    or_eq_add _ _ 16 (by omega) (by omega)
  rw [e6]
  have e7 : (v % 256 * 72057594037927936 + v / 256 % 256 * 281474976710656 + v / 65536 % 256 * 1099511627776 + v / 16777216 % 256 * 4294967296 + v / 4294967296 % 256 * 16777216 + v / 1099511627776 % 256 * 65536 + v / 281474976710656 % 256 * 256) ||| v / 72057594037927936 % 256
      = v % 256 * 72057594037927936 + v / 256 % 256 * 281474976710656 + v / 65536 % 256 * 1099511627776 + v / 16777216 % 256 * 4294967296 + v / 4294967296 % 256 * 16777216 + v / 1099511627776 % 256 * 65536 + v / 281474976710656 % 256 * 256 + v / 72057594037927936 % 256 :=
    or_eq_add _ _ 8 (by omega) (by omega)
  rw [e7]
  omega

/-- The two bytes of a 16-bit number given by its bytes. -/
theorem bytes_of_sum2 (a b : Nat) (ha : a < 256) (hb : b < 256) :
    (a * 256 + b) % 256 = b ∧ (a * 256 + b) / 256 % 256 = a := by
  constructor <;> omega

/-- The four bytes of a 32-bit number given by its bytes. -/
theorem bytes_of_sum4 (a b c d : Nat) (ha : a < 256) (hb : b < 256) (hc : c < 256)
    (hd : d < 256) :
    (a * 16777216 + b * 65536 + c * 256 + d) % 256 = d ∧
    (a * 16777216 + b * 65536 + c * 256 + d) / 256 % 256 = c ∧
    (a * 16777216 + b * 65536 + c * 256 + d) / 65536 % 256 = b ∧
    (a * 16777216 + b * 65536 + c * 256 + d) / 16777216 % 256 = a := by
  refine ⟨?_, ?_, ?_, ?_⟩ <;> omega

/-- The eight bytes of a 64-bit number given by its bytes. -/
theorem bytes_of_sum8 (a b c d e f g k : Nat) (ha : a < 256) (hb : b < 256) (hc : c < 256)
    (hd : d < 256) (he : e < 256) (hf : f < 256) (hg : g < 256) (hk : k < 256) :
    (a * 72057594037927936 + b * 281474976710656 + c * 1099511627776 + d * 4294967296 + e * 16777216 + f * 65536 + g * 256 + k) % 256 = k ∧
    (a * 72057594037927936 + b * 281474976710656 + c * 1099511627776 + d * 4294967296 + e * 16777216 + f * 65536 + g * 256 + k) / 256 % 256 = g ∧
    (a * 72057594037927936 + b * 281474976710656 + c * 1099511627776 + d * 4294967296 + e * 16777216 + f * 65536 + g * 256 + k) / 65536 % 256 = f ∧
    (a * 72057594037927936 + b * 281474976710656 + c * 1099511627776 + d * 4294967296 + e * 16777216 + f * 65536 + g * 256 + k) / 16777216 % 256 = e ∧
    (a * 72057594037927936 + b * 281474976710656 + c * 1099511627776 + d * 4294967296 + e * 16777216 + f * 65536 + g * 256 + k) / 4294967296 % 256 = d ∧
    (a * 72057594037927936 + b * 281474976710656 + c * 1099511627776 + d * 4294967296 + e * 16777216 + f * 65536 + g * 256 + k) / 1099511627776 % 256 = c ∧
    (a * 72057594037927936 + b * 281474976710656 + c * 1099511627776 + d * 4294967296 + e * 16777216 + f * 65536 + g * 256 + k) / 281474976710656 % 256 = b ∧
    (a * 72057594037927936 + b * 281474976710656 + c * 1099511627776 + d * 4294967296 + e * 16777216 + f * 65536 + g * 256 + k) / 72057594037927936 % 256 = a := by
  refine ⟨?_, ?_, ?_, ?_, ?_, ?_, ?_, ?_⟩ <;> omega

/-- The indices of two bytes. -/
theorem range_2 : List.range 2 = [0, 1] := by decide
/-- The indices of four bytes. -/
theorem range_4 : List.range 4 = [0, 1, 2, 3] := by decide
/-- The indices of eight bytes. -/
theorem range_8 : List.range 8 = [0, 1, 2, 3, 4, 5, 6, 7] := by decide

/-- The two big-endian bytes of `v`. -/
theorem big_endian_bytes_2 (v : Nat) : big_endian_bytes 2 v = [v / 256 % 256, v % 256] := by
  simp [big_endian_bytes, range_2]

/-- The four big-endian bytes of `v`. -/
theorem big_endian_bytes_4 (v : Nat) :
    big_endian_bytes 4 v = [v / 16777216 % 256, v / 65536 % 256, v / 256 % 256, v % 256] := by
  simp [big_endian_bytes, range_4]

/-- The eight big-endian bytes of `v`. -/
theorem big_endian_bytes_8 (v : Nat) :
    big_endian_bytes 8 v = [v / 72057594037927936 % 256, v / 281474976710656 % 256,
      v / 1099511627776 % 256, v / 4294967296 % 256, v / 16777216 % 256, v / 65536 % 256,
      v / 256 % 256, v % 256] := by
  simp [big_endian_bytes, range_8]

/-- Memory image of a 2-byte integer on a little-endian host. -/
theorem memcpy_little_2 (x : Nat) :
    memcpy_bytes .little_endian 2 x = [x % 256, x / 256 % 256] := by
  simp [memcpy_bytes, range_2, Nat.shiftRight_eq_div_pow]

/-- Memory image of a 4-byte integer on a little-endian host. -/
theorem memcpy_little_4 (x : Nat) :
    memcpy_bytes .little_endian 4 x
      = [x % 256, x / 256 % 256, x / 65536 % 256, x / 16777216 % 256] := by
  simp [memcpy_bytes, range_4, Nat.shiftRight_eq_div_pow]

/-- Memory image of an 8-byte integer on a little-endian host. -/
theorem memcpy_little_8 (x : Nat) :
    memcpy_bytes .little_endian 8 x
      = [x % 256, x / 256 % 256, x / 65536 % 256, x / 16777216 % 256, x / 4294967296 % 256,
         x / 1099511627776 % 256, x / 281474976710656 % 256, x / 72057594037927936 % 256] := by
  simp [memcpy_bytes, range_8, Nat.shiftRight_eq_div_pow]

/-- Memory image on a big-endian host: the little-endian image reversed. -/
theorem memcpy_big (size x : Nat) :
    memcpy_bytes .big_endian size x = (memcpy_bytes .little_endian size x).reverse := rfl

/-- On either host, `TO_BE16` followed by `memcpy` stores the two bytes of `v`, most
significant first. -/
theorem memcpy_to_be16 (h : host_endian) (v : Nat) (hv : v < 2 ^ 16) :
    memcpy_bytes h 2 (TO_BE16 h v) = big_endian_bytes 2 v := by
  rw [big_endian_bytes_2]
  cases h
  · have hs := bytes_of_sum2 (v % 256) (v / 256 % 256) (by omega) (by omega)
    simp only [TO_BE16, swap16_eq v hv, memcpy_little_2, hs]
  · simp only [TO_BE16, memcpy_big, memcpy_little_2, Nat.mod_eq_of_lt hv, List.reverse_cons,
      List.reverse_nil, List.nil_append, List.singleton_append]

/-- On either host, `TO_BE32` followed by `memcpy` stores the four bytes of `v`, most
significant first. -/
theorem memcpy_to_be32 (h : host_endian) (v : Nat) (hv : v < 2 ^ 32) :
    memcpy_bytes h 4 (TO_BE32 h v) = big_endian_bytes 4 v := by
  rw [big_endian_bytes_4]
  cases h
  · have hs := bytes_of_sum4 (v % 256) (v / 256 % 256) (v / 65536 % 256) (v / 16777216 % 256)
      (by omega) (by omega) (by omega) (by omega)
    simp only [TO_BE32, swap32_eq v hv, memcpy_little_4, hs]
  · simp only [TO_BE32, memcpy_big, memcpy_little_4, Nat.mod_eq_of_lt hv, List.reverse_cons,
      List.reverse_nil, List.nil_append, List.singleton_append, List.cons_append]

/-- On either host, `TO_BE64` followed by `memcpy` stores the eight bytes of `v`, most
significant first. -/
theorem memcpy_to_be64 (h : host_endian) (v : Nat) (hv : v < 2 ^ 64) :
    memcpy_bytes h 8 (TO_BE64 h v) = big_endian_bytes 8 v := by
  rw [big_endian_bytes_8]
  cases h
  · have hs := bytes_of_sum8 (v % 256) (v / 256 % 256) (v / 65536 % 256) (v / 16777216 % 256)
      (v / 4294967296 % 256) (v / 1099511627776 % 256) (v / 281474976710656 % 256)
      (v / 72057594037927936 % 256)
      (by omega) (by omega) (by omega) (by omega) (by omega) (by omega) (by omega) (by omega)
    simp only [TO_BE64, swap64_eq v hv, memcpy_little_8, hs]
  · simp only [TO_BE64, memcpy_big, memcpy_little_8, Nat.mod_eq_of_lt hv, List.reverse_cons,
      List.reverse_nil, List.nil_append, List.singleton_append, List.cons_append]

/-- `SWAP_LE_BE16` yields a 16-bit value. -/
theorem swap16_lt (v : Nat) (hv : v < 2 ^ 16) : SWAP_LE_BE16 v < 2 ^ 16 := by
  rw [swap16_eq v hv]
  omega

/-- `SWAP_LE_BE32` yields a 32-bit value. -/
theorem swap32_lt (v : Nat) (hv : v < 2 ^ 32) : SWAP_LE_BE32 v < 2 ^ 32 := by
  rw [swap32_eq v hv]
  omega

/-- `SWAP_LE_BE64` yields a 64-bit value. -/
theorem swap64_lt (v : Nat) (hv : v < 2 ^ 64) : SWAP_LE_BE64 v < 2 ^ 64 := by
  rw [swap64_eq v hv]
  omega

/-- `SWAP_LE_BE16` is an involution on 16-bit values. -/
theorem swap16_swap16 (v : Nat) (hv : v < 2 ^ 16) : SWAP_LE_BE16 (SWAP_LE_BE16 v) = v := by
  have hs := bytes_of_sum2 (v % 256) (v / 256 % 256) (by omega) (by omega)
  rw [swap16_eq _ (swap16_lt v hv), swap16_eq v hv, hs.1, hs.2]
  clear hs
  omega

/-- `SWAP_LE_BE32` is an involution on 32-bit values. -/
theorem swap32_swap32 (v : Nat) (hv : v < 2 ^ 32) : SWAP_LE_BE32 (SWAP_LE_BE32 v) = v := by
  have hs := bytes_of_sum4 (v % 256) (v / 256 % 256) (v / 65536 % 256) (v / 16777216 % 256)
    (by omega) (by omega) (by omega) (by omega)
  rw [swap32_eq _ (swap32_lt v hv), swap32_eq v hv, hs.1, hs.2.1, hs.2.2.1, hs.2.2.2]
  clear hs
  omega

/-- `SWAP_LE_BE64` is an involution on 64-bit values. -/
theorem swap64_swap64 (v : Nat) (hv : v < 2 ^ 64) : SWAP_LE_BE64 (SWAP_LE_BE64 v) = v := by
  have hs := bytes_of_sum8 (v % 256) (v / 256 % 256) (v / 65536 % 256) (v / 16777216 % 256)
    (v / 4294967296 % 256) (v / 1099511627776 % 256) (v / 281474976710656 % 256)
    (v / 72057594037927936 % 256)
    (by omega) (by omega) (by omega) (by omega) (by omega) (by omega) (by omega) (by omega)
  rw [swap64_eq _ (swap64_lt v hv), swap64_eq v hv, hs.1, hs.2.1, hs.2.2.1, hs.2.2.2.1,
    hs.2.2.2.2.1, hs.2.2.2.2.2.1, hs.2.2.2.2.2.2.1, hs.2.2.2.2.2.2.2]
  clear hs
  omega

/-! ## Auxiliary facts on the emitter -/

/-- The sink operation appends a buffer of exactly `len` bytes whole. -/
theorem append_len_exact (buf ud : List Nat) (len : Nat) (hl : buf.length ≤ len) :
    ucl_emitter_append_len buf len ud = ud ++ buf := by
  unfold ucl_emitter_append_len
  rw [List.take_of_length_le hl]

/-- Masking a number up to 127 with `0x7f` leaves it unchanged. -/
theorem mask_7f_of_le (m : Nat) (hm : m ≤ 127) : 0x7f &&& m = m := by
  rw [Nat.land_comm]
  have := Nat.and_pow_two_sub_one_eq_mod m 7
  norm_num at this
  omega

/-- Masking a number up to 255 with `0xff` leaves it unchanged. -/
theorem mask_ff_of_le (m : Nat) (hm : m ≤ 255) : m &&& 0xff = m := by
  rw [and_mask_byte0]
  omega

/-- The lead byte of a fixed form: a tag that is a multiple of `2 ^ i` combined
with a count below `2 ^ i` stays a byte. -/
theorem fix_tag_byte (len tag i : Nat) (ht : 2 ^ i ∣ tag) (hl : len < 2 ^ i)
    (hb : tag + len ≤ 255) : (len ||| tag) &&& 0xff = tag ||| len := by
  rw [Nat.lor_comm, or_eq_add tag len i ht hl]
  exact mask_ff_of_le _ hb

/-- The big-endian form of a number has as many bytes as asked for. -/
theorem big_endian_bytes_length (width v : Nat) : (big_endian_bytes width v).length = width := by
  simp [big_endian_bytes]

/-- The memory image of an integer has as many bytes as its size. -/
theorem memcpy_bytes_length (h : host_endian) (size v : Nat) :
    (memcpy_bytes h size v).length = size := by
  cases h <;> simp [memcpy_bytes]

/-- The three-way header shared by `ucl_emitter_print_array_msgpack` and
`ucl_emitter_print_object_msgpack`. -/
theorem container_header_eq (h : host_endian) (ud : List Nat) (fix tag16 tag32 len : Nat)
    (hfix : 2 ^ 4 ∣ fix) (hb : fix + 15 ≤ 255) (hlen : len < 2 ^ 32) :
    (if len ≤ 0xF then
        ucl_emitter_append_len [(len ||| fix) &&& 0xff] 1 ud
      else if len ≤ 0xffff then
        ucl_emitter_append_len (tag16 :: memcpy_bytes h 2 (TO_BE16 h (len % 2 ^ 16))) 3 ud
      else
        ucl_emitter_append_len (tag32 :: memcpy_bytes h 4 (TO_BE32 h (len % 2 ^ 32))) 5 ud)
      = ud ++ msgpack_container_header fix tag16 tag32 len := by
  unfold msgpack_container_header
  by_cases h1 : len ≤ 15
  · rw [if_pos h1, if_pos h1, append_len_exact _ _ _ (by simp),
      fix_tag_byte len fix 4 hfix (by omega) (by omega)]
  · by_cases h2 : len ≤ 65535
    · rw [if_neg h1, if_pos h2, if_neg h1, if_pos h2, Nat.mod_eq_of_lt (by omega),
        memcpy_to_be16 h len (by omega),
        append_len_exact _ _ _ (by simp [big_endian_bytes_length])]
    · rw [if_neg h1, if_neg h2, if_neg h1, if_neg h2, Nat.mod_eq_of_lt hlen,
        memcpy_to_be32 h len hlen,
        append_len_exact _ _ _ (by simp [big_endian_bytes_length])]

/-- The non-negative branch of `ucl_emitter_print_int_msgpack` appends the
encoding the specification prescribes. -/
theorem print_int_nonneg_eq (h : host_endian) (ud : List Nat) (n : Int) (h0 : 0 ≤ n)
    (h1 : n < 2 ^ 63) :
    ucl_emitter_print_int_msgpack h ud n = ud ++ msgpack_uint_encoding n.toNat := by
  have hge : n ≥ 0 := h0
  have e64 : (n % 2 ^ 64).toNat = n.toNat := by omega
  simp only [ucl_emitter_print_int_msgpack, msgpack_uint_encoding]
  rw [if_pos hge]
  by_cases c1 : n ≤ 0x7f
  · rw [if_pos c1, if_pos (by omega : n.toNat ≤ 127), e64, mask_7f_of_le _ (by omega),
      Nat.mod_eq_of_lt (by omega), append_len_exact _ _ _ (by simp)]
  · rw [if_neg c1, if_neg (by omega : ¬ n.toNat ≤ 127)]
    by_cases c2 : n ≤ 0xff
    · rw [if_pos c2, if_pos (by omega : n.toNat ≤ 255), e64, mask_ff_of_le _ (by omega),
        append_len_exact _ _ _ (by simp)]
    · rw [if_neg c2, if_neg (by omega : ¬ n.toNat ≤ 255)]
      by_cases c3 : n ≤ 0xffff
      · have e16 : (n % 2 ^ 16).toNat = n.toNat := by omega
        rw [if_pos c3, if_pos (by omega : n.toNat ≤ 65535), e16,
          memcpy_to_be16 h _ (by omega),
          append_len_exact _ _ _ (by simp [big_endian_bytes_length])]
      · rw [if_neg c3, if_neg (by omega : ¬ n.toNat ≤ 65535)]
        by_cases c4 : n ≤ 0xffffffff
        · have e32 : (n % 2 ^ 32).toNat = n.toNat := by omega
          rw [if_pos c4, if_pos (by omega : n.toNat ≤ 2 ^ 32 - 1), e32,
            memcpy_to_be32 h _ (by omega),
            append_len_exact _ _ _ (by simp [big_endian_bytes_length])]
        · rw [if_neg c4, if_neg (by omega : ¬ n.toNat ≤ 2 ^ 32 - 1), e64,
            memcpy_to_be64 h _ (by omega),
            append_len_exact _ _ _ (by simp [big_endian_bytes_length])]

/-- `ucl_emitter_print_string_msgpack` appends the header the specification
prescribes and then the bytes of the string. -/
theorem print_string_eq (h : host_endian) (ud s : List Nat) (hL : s.length < 2 ^ 32) :
    ucl_emitter_print_string_msgpack h ud s s.length
      = ud ++ msgpack_str_header s.length ++ s := by
  simp only [ucl_emitter_print_string_msgpack, msgpack_str_header]
  rw [append_len_exact s _ _ (le_refl _)]
  congr 1
  by_cases c1 : s.length ≤ 0x1F
  · rw [if_pos c1, if_pos c1, append_len_exact _ _ _ (by simp),
      fix_tag_byte _ 0xA0 5 (by omega) (by omega) (by omega)]
  · rw [if_neg c1, if_neg c1]
    by_cases c2 : s.length ≤ 0xff
    · rw [if_pos c2, if_pos c2, mask_ff_of_le _ c2, append_len_exact _ _ _ (by simp)]
    · rw [if_neg c2, if_neg c2]
      by_cases c3 : s.length ≤ 0xffff
      · rw [if_pos c3, if_pos c3, Nat.mod_eq_of_lt (by omega), memcpy_to_be16 h _ (by omega),
          append_len_exact _ _ _ (by simp [big_endian_bytes_length])]
      · rw [if_neg c3, if_neg c3, Nat.mod_eq_of_lt hL, memcpy_to_be32 h _ hL,
          append_len_exact _ _ _ (by simp [big_endian_bytes_length])]

/-- `ucl_emitter_print_array_msgpack` appends the array header the specification
prescribes. -/
theorem print_array_eq (h : host_endian) (ud : List Nat) (c : Nat) (hc : c < 2 ^ 32) :
    ucl_emitter_print_array_msgpack h ud c
      = ud ++ msgpack_container_header 0x90 0xdc 0xdd c := by
  simp only [ucl_emitter_print_array_msgpack]
  exact container_header_eq h ud 0x90 0xdc 0xdd c (by omega) (by omega) hc

/-- `ucl_emitter_print_object_msgpack` appends the map header the specification
prescribes. -/
theorem print_object_eq (h : host_endian) (ud : List Nat) (c : Nat) (hc : c < 2 ^ 32) :
    ucl_emitter_print_object_msgpack h ud c
      = ud ++ msgpack_container_header 0x80 0xde 0xdf c := by
  simp only [ucl_emitter_print_object_msgpack]
  exact container_header_eq h ud 0x80 0xde 0xdf c (by omega) (by omega) hc

/-- `ucl_emitter_print_double_msgpack` appends the tag `0xcb` and the eight
bytes of the bit pattern, most significant first. -/
theorem print_double_eq (h : host_endian) (ud : List Nat) (b : Nat) (hb : b < 2 ^ 64) :
    ucl_emitter_print_double_msgpack h ud b = ud ++ 0xcb :: big_endian_bytes 8 b := by
  simp only [ucl_emitter_print_double_msgpack]
  rw [memcpy_to_be64 h b hb, append_len_exact _ _ _ (by simp [big_endian_bytes_length])]

/-- The memory image of a byte-swapped 16-bit value is the reversed image. -/
theorem swap16_reverses (x : Nat) (hx : x < 2 ^ 16) :
    memcpy_bytes .little_endian 2 (SWAP_LE_BE16 x)
      = (memcpy_bytes .little_endian 2 x).reverse := by
  have := memcpy_to_be16 .little_endian x hx
  simp only [TO_BE16] at this
  rw [this, big_endian_bytes_2, memcpy_little_2]
  rfl

/-- The memory image of a byte-swapped 32-bit value is the reversed image. -/
theorem swap32_reverses (x : Nat) (hx : x < 2 ^ 32) :
    memcpy_bytes .little_endian 4 (SWAP_LE_BE32 x)
      = (memcpy_bytes .little_endian 4 x).reverse := by
  have := memcpy_to_be32 .little_endian x hx
  simp only [TO_BE32] at this
  rw [this, big_endian_bytes_4, memcpy_little_4]
  rfl

/-- The memory image of a byte-swapped 64-bit value is the reversed image. -/
theorem swap64_reverses (x : Nat) (hx : x < 2 ^ 64) :
    memcpy_bytes .little_endian 8 (SWAP_LE_BE64 x)
      = (memcpy_bytes .little_endian 8 x).reverse := by
  have := memcpy_to_be64 .little_endian x hx
  simp only [TO_BE64] at this
  rw [this, big_endian_bytes_8, memcpy_little_8]
  rfl

/-- At a byte the first entry does not accept, `ucl_msgpack_consume` does not
return, whatever the fuel and the container. -/
theorem consume_stuck (h : host_endian) (fuel begin t : Nat) (rest : List Nat)
    (stack container : Option ucl_object_t) (ht : fixstr_entry.accepts t = false) :
    ucl_msgpack_consume h fuel ⟨stack, ⟨begin, t :: rest⟩⟩ container = none := by
  obtain ⟨l1, hl⟩ := loop_stuck h ⟨begin, t :: rest⟩ container t ht fuel
    (consume_init ⟨begin, t :: rest⟩) rfl (by simp [consume_init, ucl_chunk.remain])
    (deref_begin_cons begin t rest)
  unfold ucl_msgpack_consume
  simp only [hl]

/-! ## Auxiliary facts on the format table -/

/-- The first match of a list is the head of its matching elements. -/
theorem find_eq_head_filter {α : Type} (p : α → Bool) (l : List α) :
    l.find? p = (l.filter p).head? := by
  induction l with
  | nil => rfl
  | cons a l ih =>
    rw [List.find?_cons, List.filter_cons]
    cases p a
    · exact ih
    · rfl

/-- Every format other than `msgpack_invalid` has exactly one entry in the
table, and `msgpack_invalid` has none. -/
theorem formats_once (f : ucl_msgpack_format) :
    (parsers.filter (fun d => d.fmt == f)).length = if f = .msgpack_invalid then 0 else 1 := by
  cases f <;> decide

set_option maxRecDepth 100000 in
/-- Under exact prefix comparison every byte other than `0xc1` matches exactly
one entry of the table, and `0xc1` matches none. -/
theorem top_bits_match_count :
    ∀ t, t < 256 → (parsers.filter (fun d => top_bits_equal d t)).length
      = if t = 0xc1 then 0 else 1 := by
  decide

/-- A list with at most one matching element has the same first match in any
order. -/
theorem find_perm_of_unique {α : Type} (p : α → Bool) (l1 l2 : List α) (hp : l1.Perm l2)
    (hu : (l2.filter p).length ≤ 1) : l1.find? p = l2.find? p := by
  rw [find_eq_head_filter, find_eq_head_filter]
  have hf := hp.filter p
  match hl : l2.filter p, hu with
  | [], _ =>
    rw [hl] at hf
    rw [List.perm_nil.1 hf]
  | [a], _ =>
    rw [hl] at hf
    rw [List.perm_singleton.1 hf]
  | _ :: _ :: _, hu => simp at hu

/-! ## Auxiliary facts on the decoder loop -/

set_option maxRecDepth 100000 in
/-- The bytes the first table entry accepts are those of `0xa0..0xbf` and
`0xe0..0xff`. -/
theorem fixstr_accepts_eq :
    ∀ t, t < 256 → fixstr_entry.accepts t = in_skipped_range t := by
  decide

/-- The byte at offset `i` of the chunk. -/
theorem deref_add (c : ucl_chunk) (i : Nat) : c.deref (c.begin + i) = c.data[i]? := by
  unfold ucl_chunk.deref
  rw [if_pos (Nat.le_add_right _ _), Nat.add_sub_cancel_left]

/-- Over a stretch of bytes the first entry accepts, the loop moves the read
position forward by one byte per pass. -/
theorem loop_advance (h : host_endian) (c : ucl_chunk) (container : Option ucl_object_t)
    (mid : List Nat) : ∀ (pre post : List Nat) (len : Option Nat) (n : Nat),
      c.data = pre ++ mid ++ post → (∀ t ∈ mid, fixstr_entry.accepts t = true) →
      ∃ len1, consume_loop h c container (mid.length + n)
          ⟨c.begin + pre.length, c.remain - pre.length, .read_type, len⟩
        = consume_loop h c container n
          ⟨c.begin + (pre.length + mid.length), c.remain - (pre.length + mid.length),
            .read_type, len1⟩ := by
  induction mid with
  | nil =>
    intro pre post len n _ _
    exact ⟨len, by simp⟩
  | cons t mid ih =>
    intro pre post len n hd hacc
    have hlen : c.remain = pre.length + (mid.length + 1) + post.length := by
      simp only [ucl_chunk.remain, hd, List.length_append, List.length_cons]
    have hderef : c.deref (c.begin + pre.length) = some t := by
      rw [deref_add, hd, List.append_assoc, List.getElem?_append_right (Nat.le_refl _),
        Nat.sub_self]
      simp
    have hb := body_of_fixstr h c container
      ⟨c.begin + pre.length, c.remain - pre.length, .read_type, len⟩ t rfl hderef
      (hacc t (List.mem_cons_self _ _)) (by simp only; omega)
    have hd1 : c.data = (pre ++ [t]) ++ mid ++ post := by
      rw [hd]
      simp
    obtain ⟨len1, h1⟩ := ih (pre ++ [t]) post (some (t &&& (0xffffffff - 0xa0))) n hd1
      (fun x hx => hacc x (List.mem_cons_of_mem _ hx))
    refine ⟨len1, ?_⟩
    have e1 : (t :: mid).length + n = (mid.length + n) + 1 := by
      simp only [List.length_cons]
      omega
    have e2 : c.begin + pre.length + 1 = c.begin + (pre ++ [t]).length := by
      simp only [List.length_append, List.length_cons, List.length_nil]
      omega
    have e3 : c.remain - pre.length - 1 = c.remain - (pre ++ [t]).length := by
      simp only [List.length_append, List.length_cons, List.length_nil]
      omega
    have e4 : pre.length + (t :: mid).length = (pre ++ [t]).length + mid.length := by
      simp only [List.length_append, List.length_cons, List.length_nil]
      omega
    rw [e1, consume_loop, if_pos (by simp only; omega), hb]
    simp only
    rw [e2, e3, e4]
    exact h1

/-- At a byte the first entry does not accept, every pass of the loop leaves
the read position, `remain` and the state as they are. -/
theorem loop_stuck_at (h : host_endian) (c : ucl_chunk) (container : Option ucl_object_t)
    (t p r : Nat) (ht : fixstr_entry.accepts t = false) (hp : p < c.begin + c.remain)
    (hd : c.deref p = some t) (n : Nat) :
    ∀ len, ∃ len1, consume_loop h c container n ⟨p, r, .read_type, len⟩
      = .running ⟨p, r, .read_type, len1⟩ := by
  induction n with
  | zero => intro len; exact ⟨len, rfl⟩
  | succ n ih =>
    intro len
    have hb := body_of_not_fixstr h c container ⟨p, r, .read_type, len⟩ t rfl hd ht
    rw [consume_loop, if_pos hp, hb]
    exact ih _

/-- A list with an element failing a test splits at the first such element. -/
theorem exists_first_failing (q : Nat → Bool) (l : List Nat) (hl : ¬ ∀ b ∈ l, q b = true) :
    ∃ pre b post, l = pre ++ b :: post ∧ (∀ x ∈ pre, q x = true) ∧ q b = false := by
  induction l with
  | nil => exact absurd (by simp) hl
  | cons a l ih =>
    by_cases ha : q a = true
    · have hl1 : ¬ ∀ b ∈ l, q b = true := by
        intro hall
        apply hl
        intro b hb
        rcases List.mem_cons.1 hb with rfl | hb
        · exact ha
        · exact hall b hb
      obtain ⟨pre, b, post, he, hpre, hb⟩ := ih hl1
      refine ⟨a :: pre, b, post, by rw [he]; rfl, ?_, hb⟩
      intro x hx
      rcases List.mem_cons.1 hx with rfl | hx
      · exact ha
      · exact hpre x hx
    · exact ⟨[], a, l, rfl, by simp, by simpa using ha⟩

/-- Up to the first byte the first entry does not accept the loop moves one
byte per pass, and from then on it stays at that byte. -/
theorem loop_at_first_rejected (h : host_endian) (c : ucl_chunk)
    (container : Option ucl_object_t) (pre post : List Nat) (b : Nat)
    (hd : c.data = pre ++ b :: post) (hpre : ∀ x ∈ pre, fixstr_entry.accepts x = true)
    (hb : fixstr_entry.accepts b = false) (k : Nat) (hk : pre.length ≤ k) :
    ∃ len, consume_loop h c container k (consume_init c)
      = .running ⟨c.begin + pre.length, c.remain - pre.length, .read_type, len⟩ := by
  obtain ⟨n, rfl⟩ := Nat.exists_eq_add_of_le hk
  obtain ⟨len1, h1⟩ := loop_advance h c container pre [] (b :: post) none n
    (by rw [hd]; simp) hpre
  have hlen : c.remain = pre.length + (post.length + 1) := by
    simp only [ucl_chunk.remain, hd, List.length_append, List.length_cons]
  have hderef : c.deref (c.begin + pre.length) = some b := by
    rw [deref_add, hd, List.getElem?_append_right (Nat.le_refl _), Nat.sub_self]
    simp
  obtain ⟨len2, h2⟩ := loop_stuck_at h c container b (c.begin + pre.length)
    (c.remain - pre.length) hb (by omega) hderef n len1
  refine ⟨len2, ?_⟩
  have h1' : consume_loop h c container (pre.length + n) (consume_init c)
      = consume_loop h c container n
        ⟨c.begin + pre.length, c.remain - pre.length, .read_type, len1⟩ := by
    simpa [consume_init] using h1
  rw [h1', h2]

/-- Over bytes the first entry accepts, the loop is at offset `k` after `k`
passes. -/
theorem loop_over_accepted (h : host_endian) (c : ucl_chunk)
    (container : Option ucl_object_t) (pre post : List Nat)
    (hd : c.data = pre ++ post) (hpre : ∀ x ∈ pre, fixstr_entry.accepts x = true) (n : Nat) :
    ∃ len, consume_loop h c container (pre.length + n) (consume_init c)
      = consume_loop h c container n
        ⟨c.begin + pre.length, c.remain - pre.length, .read_type, len⟩ := by
  obtain ⟨len1, h1⟩ := loop_advance h c container pre [] post none n (by rw [hd]; simp) hpre
  exact ⟨len1, by simpa [consume_init] using h1⟩

/-- Whatever the chunk, `ucl_msgpack_consume` can only return `false`, with no
error recorded and the container as it was. -/
theorem consume_only_returns_false (h : host_endian) (fuel : Nat) (parser : ucl_parser_t)
    (container : Option ucl_object_t) (r : consume_result)
    (hr : ucl_msgpack_consume h fuel parser container = some r) :
    r = .returned false none container := by
  unfold ucl_msgpack_consume at hr
  rcases loop_preserves_inv h parser.chunks container fuel _ (consume_init_inv parser.chunks)
    with ⟨l1, hl, _⟩ | hret
  · rw [hl] at hr
    simp at hr
  · rw [hret] at hr
    simpa using hr.symm

/-- When the first entry accepts every byte of the chunk, the loop is at offset
`k` after `k` passes, and `ucl_msgpack_consume` returns `false` with no error
after one pass per byte. -/
theorem consume_all_accepted (h : host_endian) (c : ucl_chunk)
    (stack container : Option ucl_object_t)
    (hacc : ∀ x ∈ c.data, fixstr_entry.accepts x = true) :
    (∀ k, k ≤ c.remain → ∃ len, consume_loop h c container k (consume_init c)
      = .running ⟨c.begin + k, c.remain - k, .read_type, len⟩) ∧
    ucl_msgpack_consume h (c.remain + 1) ⟨stack, c⟩ container
      = some (.returned false none container) := by
  constructor
  · intro k hk
    have hk' : k ≤ c.data.length := hk
    obtain ⟨len, hl⟩ := loop_over_accepted h c container (c.data.take k) (c.data.drop k)
      (List.take_append_drop k c.data).symm
      (fun x hx => hacc x (List.mem_of_mem_take hx)) 0
    have hlen : (c.data.take k).length = k := by
      rw [List.length_take]
      omega
    rw [hlen] at hl
    exact ⟨len, hl⟩
  · obtain ⟨len, hl⟩ := loop_over_accepted h c container c.data [] (by simp) hacc 1
    have hl' : consume_loop h c container (c.remain + 1) (consume_init c)
        = .returned false none container := by
      have e : c.data.length = c.remain := rfl
      rw [e] at hl
      rw [hl, consume_loop, if_neg (by simp)]
    unfold ucl_msgpack_consume
    simp only [hl']

/-- When the chunk holds a byte the first entry does not accept,
`ucl_msgpack_consume` does not return, whatever the fuel. -/
theorem consume_never_returns (h : host_endian) (c : ucl_chunk)
    (stack container : Option ucl_object_t) (pre post : List Nat) (b : Nat)
    (hd : c.data = pre ++ b :: post) (hpre : ∀ x ∈ pre, fixstr_entry.accepts x = true)
    (hb : fixstr_entry.accepts b = false) (fuel : Nat) :
    ucl_msgpack_consume h fuel ⟨stack, c⟩ container = none := by
  have hrun : ∃ l, consume_loop h c container fuel (consume_init c) = .running l := by
    by_cases hk : pre.length ≤ fuel
    · obtain ⟨len, hl⟩ := loop_at_first_rejected h c container pre post b hd hpre hb fuel hk
      exact ⟨_, hl⟩
    · obtain ⟨len, hl⟩ := loop_over_accepted h c container (pre.take fuel)
        (pre.drop fuel ++ b :: post)
        (by rw [hd, ← List.append_assoc, List.take_append_drop])
        (fun x hx => hpre x (List.mem_of_mem_take hx)) 0
      have hlen : (pre.take fuel).length = fuel := by
        rw [List.length_take]
        omega
      rw [hlen] at hl
      exact ⟨_, hl⟩
  obtain ⟨l, hl⟩ := hrun
  unfold ucl_msgpack_consume
  simp only [hl]

/-! ## Auxiliary facts on the integer emitter -/

/-- The arithmetic shift of a negative 64-bit integer by 63 is -1. -/
theorem shift63_of_neg (val : Int) (h1 : val < 0) (h2 : -2 ^ 63 ≤ val) : val >>> 63 = -1 := by
  obtain ⟨m, rfl⟩ := Int.eq_negSucc_of_lt_zero h1
  have hm : m < 2 ^ 63 := by
    rw [Int.negSucc_eq] at h2
    omega
  have e : (Int.negSucc m) >>> ((63 : ℕ) : ℤ) = Int.negSucc (m >>> 63) :=
    Int.shiftRight_negSucc m 63
  have e0 : m >>> 63 = 0 := by
    rw [Nat.shiftRight_eq_div_pow]
    omega
  rw [e0] at e
  exact e

/-- Exclusive or with -1 is the bitwise complement. -/
theorem xor_neg_one (val : Int) (h1 : val < 0) : Int.xor val (-1) = -val - 1 := by
  obtain ⟨m, rfl⟩ := Int.eq_negSucc_of_lt_zero h1
  show Int.xor (Int.negSucc m) (Int.negSucc 0) = _
  simp only [Int.xor]
  rw [Int.negSucc_eq]
  simp

/-- On a negative 64-bit integer the "bithack abs" of line 146 is the
magnitude. -/
theorem bithack_abs_neg (val : Int) (h1 : val < 0) (h2 : -2 ^ 63 ≤ val) :
    bithack_abs val = (-val).toNat := by
  unfold bithack_abs
  rw [shift63_of_neg val h1 h2, xor_neg_one val h1]
  omega

/-- What `ucl_emitter_print_int_msgpack` appends for a 64-bit integer, on either
host. -/
theorem print_int_eq (h : host_endian) (ud : List Nat) (val : Int) (h1 : -2 ^ 63 ≤ val)
    (h2 : val < 2 ^ 63) :
    ucl_emitter_print_int_msgpack h ud val = ud ++ int_emitted_bytes val := by
  by_cases h0 : 0 ≤ val
  · rw [print_int_nonneg_eq h ud val h0 h2, int_emitted_bytes, if_pos h0]
  · have hneg : val < 0 := by omega
    have hge : ¬ val ≥ 0 := by omega
    have e5 : ((1 <<< 5 : Nat) : Int) = 32 := rfl
    simp only [ucl_emitter_print_int_msgpack, int_emitted_bytes]
    rw [if_neg hge, if_neg h0, bithack_abs_neg val hneg h1, e5]
    by_cases c1 : -32 ≤ val
    · rw [if_pos (show val ≥ -32 from c1), if_pos c1, append_len_exact _ _ _ (by simp)]
    · rw [if_neg (show ¬ val ≥ -32 from c1), if_neg c1]
      by_cases c2 : (-val).toNat ≤ 0xff
      · rw [if_pos c2, if_pos c2, append_len_exact _ _ _ (by simp)]
      · rw [if_neg c2, if_neg c2]
        by_cases c3 : (-val).toNat ≤ 0xffff
        · rw [if_pos c3, if_pos c3, memcpy_to_be16 h _ (by omega),
            append_len_exact _ _ _ (by simp [big_endian_bytes_length])]
        · rw [if_neg c3, if_neg c3]
          by_cases c4 : (-val).toNat ≤ 0xffffffff
          · rw [if_pos c4, if_pos c4, memcpy_to_be32 h _ (by omega),
              append_len_exact _ _ _ (by simp [big_endian_bytes_length])]
          · rw [if_neg c4, if_neg c4, memcpy_to_be64 h _ (by omega),
              append_len_exact _ _ _ (by simp [big_endian_bytes_length])]

/-- The big-endian value of the two big-endian bytes of a 16-bit number. -/
theorem be_value_bytes_2 (v : Nat) (hv : v < 2 ^ 16) : be_value (big_endian_bytes 2 v) = v := by
  rw [big_endian_bytes_2]
  simp only [be_value, List.foldl]
  omega

/-- The big-endian value of the four big-endian bytes of a 32-bit number. -/
theorem be_value_bytes_4 (v : Nat) (hv : v < 2 ^ 32) : be_value (big_endian_bytes 4 v) = v := by
  rw [big_endian_bytes_4]
  simp only [be_value, List.foldl]
  omega

/-- The big-endian value of the eight big-endian bytes of a 64-bit number. -/
theorem be_value_bytes_8 (v : Nat) (hv : v < 2 ^ 64) : be_value (big_endian_bytes 8 v) = v := by
  rw [big_endian_bytes_8]
  simp only [be_value, List.foldl]
  omega

/-- The inverse on an encoding with one of the unsigned tags. -/
theorem int_of_emitted_unsigned (tag : Nat) (payload : List Nat)
    (ht : tag = 0xcc ∨ tag = 0xcd ∨ tag = 0xce ∨ tag = 0xcf) :
    int_of_emitted (tag :: payload) = (be_value payload : Int) := by
  rcases ht with rfl | rfl | rfl | rfl <;> simp [int_of_emitted]

/-- The inverse on an encoding with one of the signed tags. -/
theorem int_of_emitted_signed (tag : Nat) (payload : List Nat)
    (ht : tag = 0xd0 ∨ tag = 0xd1 ∨ tag = 0xd2 ∨ tag = 0xd3) :
    int_of_emitted (tag :: payload) = (be_value payload : Int) - 256 ^ payload.length := by
  rcases ht with rfl | rfl | rfl | rfl <;> simp [int_of_emitted]

/-- The negative fixint byte of the emitter, for the magnitudes 1 to 32: the
inverse recovers the magnitude, and the byte is at least `0xe0`. -/
theorem negative_fixint_byte :
    ∀ u, u < 33 → 1 ≤ u →
      int_of_emitted [(0xe0 ||| (u &&& 0xff)) % 256] = -(u : Int) ∧
      0xe0 ≤ (0xe0 ||| (u &&& 0xff)) % 256 := by
  decide

/-- The inverse recovers every 64-bit integer from the bytes emitted for it. -/
theorem int_of_emitted_bytes (val : Int) (h1 : -2 ^ 63 ≤ val) (h2 : val < 2 ^ 63) :
    int_of_emitted (int_emitted_bytes val) = val := by
  unfold int_emitted_bytes
  by_cases h0 : 0 ≤ val
  · rw [if_pos h0]
    unfold msgpack_uint_encoding
    by_cases c1 : val.toNat ≤ 127
    · rw [if_pos c1]
      simp only [int_of_emitted]
      rw [if_pos c1]
      omega
    · rw [if_neg c1]
      by_cases c2 : val.toNat ≤ 255
      · rw [if_pos c2, int_of_emitted_unsigned _ _ (Or.inl rfl)]
        simp only [be_value, List.foldl]
        omega
      · rw [if_neg c2]
        by_cases c3 : val.toNat ≤ 65535
        · rw [if_pos c3, int_of_emitted_unsigned _ _ (Or.inr (Or.inl rfl)),
            be_value_bytes_2 _ (by omega)]
          omega
        · rw [if_neg c3]
          by_cases c4 : val.toNat ≤ 2 ^ 32 - 1
          · rw [if_pos c4, int_of_emitted_unsigned _ _ (Or.inr (Or.inr (Or.inl rfl))),
              be_value_bytes_4 _ (by omega)]
            omega
          · rw [if_neg c4, int_of_emitted_unsigned _ _ (Or.inr (Or.inr (Or.inr rfl))),
              be_value_bytes_8 _ (by omega)]
            omega
  · rw [if_neg h0]
    by_cases c1 : -32 ≤ val
    · rw [if_pos c1, (negative_fixint_byte (-val).toNat (by omega) (by omega)).1]
      omega
    · rw [if_neg c1]
      by_cases c2 : (-val).toNat ≤ 0xff
      · rw [if_pos c2, int_of_emitted_signed _ _ (Or.inl rfl)]
        simp only [be_value, List.foldl, List.length_cons, List.length_nil]
        omega
      · rw [if_neg c2]
        by_cases c3 : (-val).toNat ≤ 0xffff
        · rw [if_pos c3, int_of_emitted_signed _ _ (Or.inr (Or.inl rfl)),
            be_value_bytes_2 _ (by omega), big_endian_bytes_length]
          omega
        · rw [if_neg c3]
          by_cases c4 : (-val).toNat ≤ 0xffffffff
          · rw [if_pos c4, int_of_emitted_signed _ _ (Or.inr (Or.inr (Or.inl rfl))),
              be_value_bytes_4 _ (by omega), big_endian_bytes_length]
            omega
          · rw [if_neg c4, int_of_emitted_signed _ _ (Or.inr (Or.inr (Or.inr rfl))),
              be_value_bytes_8 _ (by omega), big_endian_bytes_length]
            omega

/-- The first byte of what is emitted for a 64-bit integer gives the number of
bytes emitted. -/
theorem int_emitted_shape (val : Int) (h1 : -2 ^ 63 ≤ val) (h2 : val < 2 ^ 63) :
    ∃ lead rest, int_emitted_bytes val = lead :: rest ∧
      (lead :: rest).length = int_length_of_lead lead := by
  unfold int_emitted_bytes
  by_cases h0 : 0 ≤ val
  · rw [if_pos h0]
    unfold msgpack_uint_encoding
    by_cases c1 : val.toNat ≤ 127
    · refine ⟨val.toNat, [], by rw [if_pos c1], ?_⟩
      simp [int_length_of_lead, c1]
    · by_cases c2 : val.toNat ≤ 255
      · refine ⟨0xcc, [val.toNat], by rw [if_neg c1, if_pos c2], ?_⟩
        simp only [List.length_cons, List.length_nil]
        decide
      · by_cases c3 : val.toNat ≤ 65535
        · refine ⟨0xcd, big_endian_bytes 2 val.toNat, by rw [if_neg c1, if_neg c2, if_pos c3], ?_⟩
          rw [List.length_cons, big_endian_bytes_length]
          decide
        · by_cases c4 : val.toNat ≤ 2 ^ 32 - 1
          · refine ⟨0xce, big_endian_bytes 4 val.toNat,
              by rw [if_neg c1, if_neg c2, if_neg c3, if_pos c4], ?_⟩
            rw [List.length_cons, big_endian_bytes_length]
            decide
          · refine ⟨0xcf, big_endian_bytes 8 val.toNat,
              by rw [if_neg c1, if_neg c2, if_neg c3, if_neg c4], ?_⟩
            rw [List.length_cons, big_endian_bytes_length]
            decide
  · rw [if_neg h0]
    by_cases c1 : -32 ≤ val
    · refine ⟨_, [], by rw [if_pos c1], ?_⟩
      have hb := (negative_fixint_byte (-val).toNat (by omega) (by omega)).2
      simp only [int_length_of_lead, List.length_cons, List.length_nil]
      rw [if_pos (Or.inr hb)]
    · by_cases c2 : (-val).toNat ≤ 0xff
      · refine ⟨0xd0, [(val % 2 ^ 8).toNat], by rw [if_neg c1, if_pos c2], ?_⟩
        simp only [List.length_cons, List.length_nil]
        decide
      · by_cases c3 : (-val).toNat ≤ 0xffff
        · refine ⟨0xd1, _, by rw [if_neg c1, if_neg c2, if_pos c3], ?_⟩
          rw [List.length_cons, big_endian_bytes_length]
          decide
        · by_cases c4 : (-val).toNat ≤ 0xffffffff
          · refine ⟨0xd2, _, by rw [if_neg c1, if_neg c2, if_neg c3, if_pos c4], ?_⟩
            rw [List.length_cons, big_endian_bytes_length]
            decide
          · refine ⟨0xd3, _, by rw [if_neg c1, if_neg c2, if_neg c3, if_neg c4], ?_⟩
            rw [List.length_cons, big_endian_bytes_length]
            decide

/-! ## Properties of the codec -/

/-- C1, failing input: the emitter functions append `0x81 0xa1 0x61 0x01` for the
object with the single member `"a": 1`, and `ucl_parse_msgpack`, given these
bytes with no container open, does not return within any number of passes of
the decoder loop, so it yields neither success nor a tree. -/
theorem roundtrip_object_a_1_not_decoded (h : host_endian) (begin fuel : Nat) :
    emitted_object_a_1 h = [0x81, 0xa1, 0x61, 0x01] ∧
    ucl_parse_msgpack h fuel ⟨none, ⟨begin, emitted_object_a_1 h⟩⟩ = none := by
  refine ⟨emitted_object_a_1_eq h, ?_⟩
  rw [emitted_object_a_1_eq]
  exact parse_stuck h fuel _ 0x81 (deref_begin_cons begin _ _) (Or.inr (by decide)) (by decide)

/-- C2, failing inputs: for -1 `ucl_emitter_print_int_msgpack` emits the single
byte `0xe1`, the negative fixint of -31, and for -200 it emits `0xd0 0x38`, the
`int8` encoding of 56; neither encoding has the value that was emitted. -/
theorem print_int_negative_not_lossless (h : host_endian) :
    ucl_emitter_print_int_msgpack h [] (-1) = [0xe1] ∧
    msgpack_int_value [0xe1] = some (-31) ∧
    ucl_emitter_print_int_msgpack h [] (-200) = [0xd0, 0x38] ∧
    msgpack_int_value [0xd0, 0x38] = some 56 := by
  cases h <;> decide

/-- C3, failing input: for -200 `ucl_emitter_print_int_msgpack` emits 2 bytes,
whereas the least length of a MessagePack integer encoding of -200 is 3: the
table of the specification says 3, the `int16` encoding `0xd1 0xff 0x38` stands
for -200, and no encoding shorter than 3 bytes does. -/
theorem print_int_minus_200_too_short (h : host_endian) :
    (ucl_emitter_print_int_msgpack h [] (-200)).length = 2 ∧
    msgpack_min_int_len (-200) = 3 ∧
    msgpack_int_value [0xd1, 0xff, 0x38] = some (-200) ∧
    ∀ bs, msgpack_int_value bs = some (-200) → 3 ≤ bs.length := by
  refine ⟨?_, ?_, ?_, int_value_minus_200_length⟩
  · cases h <;> decide
  · decide
  · decide

/-- C4, failing inputs: `ucl_msgpack_get_parser_from_type` returns the positive
fixint descriptor for the fixmap byte `0x80`, the fixstr descriptor for the
negative fixint byte `0xe0`, and the positive fixint descriptor instead of
`NULL` for `0xc1`, whereas comparing the top `prefixlen` bits for equality
gives fixmap, negative fixint and no descriptor. -/
theorem get_parser_from_type_not_top_bits_match :
    ucl_msgpack_get_parser_from_type 0x80 = some positive_fixint_entry ∧
    (classify_by_top_bits 0x80).map (fun d => d.fmt) = some .msgpack_fixmap ∧
    ucl_msgpack_get_parser_from_type 0xe0 = some fixstr_entry ∧
    (classify_by_top_bits 0xe0).map (fun d => d.fmt) = some .msgpack_negative_fixint ∧
    ucl_msgpack_get_parser_from_type 0xc1 = some positive_fixint_entry ∧
    classify_by_top_bits 0xc1 = none := by
  decide

/-- C5, failing inputs: on the one-byte buffer `0x80` with no container open
`ucl_parse_msgpack` does not return within any number of passes of the decoder
loop; on the one-byte buffer `0xff` it returns `false` with no error recorded. -/
theorem parse_msgpack_not_always_finished (h : host_endian) (begin fuel : Nat) :
    ucl_parse_msgpack h fuel ⟨none, ⟨begin, [0x80]⟩⟩ = none ∧
    ucl_parse_msgpack h 2 ⟨none, ⟨begin, [0xff]⟩⟩ = some (.returned false none none) := by
  constructor
  · exact parse_stuck h fuel _ 0x80 (deref_begin_cons begin _ _) (Or.inr (by decide)) (by decide)
  · rw [parse_enters_consume h 2 begin 0xff [] (by decide)]
    exact consume_single_fixstr h begin 0xff none (by decide)

/-- C6, failing input: on each of the three non-empty proper prefixes of the
message `0x81 0xa1 0x61 0x01` emitted for the object with the single member
`"a": 1`, `ucl_parse_msgpack` with no container open does not return within any
number of passes of the decoder loop, so no truncation error is reported. -/
theorem parse_truncated_object_not_reported (h : host_endian) (begin fuel : Nat) :
    ucl_parse_msgpack h fuel ⟨none, ⟨begin, (emitted_object_a_1 h).take 1⟩⟩ = none ∧
    ucl_parse_msgpack h fuel ⟨none, ⟨begin, (emitted_object_a_1 h).take 2⟩⟩ = none ∧
    ucl_parse_msgpack h fuel ⟨none, ⟨begin, (emitted_object_a_1 h).take 3⟩⟩ = none := by
  rw [emitted_object_a_1_eq]
  refine ⟨?_, ?_, ?_⟩ <;>
    exact parse_stuck h fuel _ 0x81 (deref_begin_cons begin _ _) (Or.inr (by decide))
      (by decide)

/-- C7: in `ucl_msgpack_consume`, for every chunk and every number `n` of passes
of the loop, no byte outside the chunk has been read (a read fails exactly at
the addresses below `begin` or from `begin + remain` on, and the run never ends
in such a read), and whenever the loop is at its head the read position `p`
satisfies `begin ≤ p ≤ begin + remain` with the local `remain` equal to the
declared length minus `p - begin`. -/
theorem consume_within_bounds (h : host_endian) (c : ucl_chunk)
    (container : Option ucl_object_t) (n : Nat) :
    (∀ p, c.deref p = none ↔ (p < c.begin ∨ c.begin + c.remain ≤ p)) ∧
    consume_loop h c container n (consume_init c) ≠ .out_of_bounds ∧
    ∀ l, consume_loop h c container n (consume_init c) = .running l →
      c.begin ≤ l.p ∧ l.p ≤ c.begin + c.remain ∧ l.remain = c.remain - (l.p - c.begin) := by
  refine ⟨deref_eq_none_iff c, ?_, ?_⟩
  · rcases loop_preserves_inv h c container n _ (consume_init_inv c) with ⟨l1, hl, _⟩ | hr
    · rw [hl]; simp
    · rw [hr]; simp
  · intro l hl
    rcases loop_preserves_inv h c container n _ (consume_init_inv c) with ⟨l1, hl1, hi⟩ | hr
    · rw [hl1] at hl
      cases hl
      exact ⟨hi.1, hi.2.1, hi.2.2.1⟩
    · rw [hr] at hl
      cases hl

/-- C7 at a concrete input: after one pass over the chunk `0xa0 0x05` stored at
address 4096 the loop is at its head with `p = 4097` and `remain = 1`, inside
the bounds. -/
theorem consume_within_bounds_witness :
    consume_loop .little_endian ⟨4096, [0xa0, 0x05]⟩ none 1 (consume_init ⟨4096, [0xa0, 0x05]⟩)
      = .running ⟨4097, 1, .read_type, some 0⟩ ∧
    (4096 ≤ 4097 ∧ 4097 ≤ 4096 + (ucl_chunk.mk 4096 [0xa0, 0x05]).remain ∧
      1 = (ucl_chunk.mk 4096 [0xa0, 0x05]).remain - (4097 - 4096)) :=
  ⟨rfl, (consume_within_bounds .little_endian ⟨4096, [0xa0, 0x05]⟩ none 1).2.2 _ rfl⟩

/-- C8, failing input: the fixstr byte `0xa0` is neither a map nor an array lead
byte, yet on the one-byte buffer `0xa0` with no container open
`ucl_parse_msgpack` does not report the bad top level object: it enters the
loop of `ucl_msgpack_consume` (with no pass allowed it has not returned) and
returns `false` with no error recorded. -/
theorem parse_top_level_fixstr_not_rejected (h : host_endian) (begin : Nat) :
    ¬ (0x80 ≤ 0xa0 ∧ 0xa0 ≤ 0x9f) ∧ ¬ (0xdc ≤ 0xa0 ∧ 0xa0 ≤ 0xdf) ∧
    ucl_parse_msgpack h 0 ⟨none, ⟨begin, [0xa0]⟩⟩ = none ∧
    ucl_parse_msgpack h 2 ⟨none, ⟨begin, [0xa0]⟩⟩ = some (.returned false none none) := by
  refine ⟨by decide, by decide, ?_, ?_⟩
  · rw [parse_enters_consume h 0 begin 0xa0 [] (by decide)]
    rfl
  · rw [parse_enters_consume h 2 begin 0xa0 [] (by decide)]
    exact consume_single_fixstr h begin 0xa0 none (by decide)

/-- C9: for every non-empty buffer whose first byte `t` is a positive fixint
(`t ≤ 0x7f`) and a parser with no open container, `ucl_parse_msgpack` returns
`false` with the condition "bad top level object for msgpack" recorded, before
any pass of the decoder loop. -/
theorem parse_rejects_top_level_positive_fixint (h : host_endian) (fuel begin t : Nat)
    (rest : List Nat) (ht : t ≤ 0x7f) :
    ucl_parse_msgpack h fuel ⟨none, ⟨begin, t :: rest⟩⟩
      = some (.returned false (some .bad_top_level) none) := by
  have hand : t &&& 0x80 ≠ 0x80 := by
    have := @Nat.and_le_left t 0x80
    omega
  have hrange : ¬ (t ≥ 0xdc ∧ t ≤ 0xdf) := by omega
  unfold ucl_parse_msgpack
  simp only [deref_begin_cons, ucl_chunk.remain, List.length_cons]
  rw [if_neg (by omega), if_pos ⟨rfl, hand, hrange⟩]

/-- C9 at a concrete input: the single byte `0x05` as a fresh top-level document
is rejected with "bad top level object for msgpack". -/
theorem parse_rejects_top_level_positive_fixint_witness :
    5 ≤ 0x7f ∧
    ucl_parse_msgpack .little_endian 0 ⟨none, ⟨4096, [0x05]⟩⟩
      = some (.returned false (some .bad_top_level) none) :=
  ⟨by decide, parse_rejects_top_level_positive_fixint .little_endian 0 4096 5 [] (by decide)⟩

/-- C10, failing input: the header `ucl_emitter_print_array_msgpack` emits for
an empty array is the single byte `0x90`, and on the one-byte buffer `0x90`
with no container open `ucl_parse_msgpack` does not return within any number
of passes of the decoder loop, so it yields no Array node. -/
theorem parse_empty_array_not_decoded (h : host_endian) (begin fuel : Nat) :
    ucl_emitter_print_array_msgpack h [] 0 = [0x90] ∧
    ucl_parse_msgpack h fuel ⟨none, ⟨begin, [0x90]⟩⟩ = none := by
  constructor
  · cases h <;> decide
  · exact parse_stuck h fuel _ 0x90 (deref_begin_cons begin _ _) (Or.inr (by decide)) (by decide)

/-- C11, failing input: for the byte `0xc1`, which has no format (no table entry
has its top bits), `ucl_msgpack_get_parser_from_type` returns the positive
fixint descriptor instead of `NULL`, and `ucl_msgpack_consume` on a chunk that
starts with `0xc1` does not return within any number of passes of its loop, so
no "unknown msgpack format" error is recorded. -/
theorem unknown_lead_byte_not_reported (h : host_endian) (begin fuel : Nat)
    (rest : List Nat) (container : Option ucl_object_t) :
    classify_by_top_bits 0xc1 = none ∧
    ucl_msgpack_get_parser_from_type 0xc1 = some positive_fixint_entry ∧
    ucl_msgpack_consume h fuel ⟨container, ⟨begin, 0xc1 :: rest⟩⟩ container = none :=
  ⟨by decide, by decide, consume_stuck h fuel begin 0xc1 rest container container (by decide)⟩

/-- C12, failing inputs: for -1 `ucl_emitter_print_int_msgpack` emits the single
byte `0xe1`, not `0xff` (which is -1 + 256); it emits `0xe2` for -2, and `0xff`
for -31. -/
theorem print_int_negative_fixint_wrong (h : host_endian) :
    ucl_emitter_print_int_msgpack h [] (-1) = [0xe1] ∧
    ((-1 : Int) + 256).toNat = 0xff ∧
    ucl_emitter_print_int_msgpack h [] (-2) = [0xe2] ∧
    ucl_emitter_print_int_msgpack h [] (-31) = [0xff] := by
  cases h <;> decide

/-- C13: for every integer `n` with `0 ≤ n < 2 ^ 63`, on either host,
`ucl_emitter_print_int_msgpack` appends to the sink exactly `[n]` if
`n ≤ 127`, `[0xcc, n]` if `n ≤ 255`, `0xcd` and `n` as 2 big-endian bytes if
`n ≤ 65535`, `0xce` and `n` as 4 big-endian bytes if `n ≤ 2 ^ 32 - 1`, and
otherwise `0xcf` and `n` as 8 big-endian bytes. -/
theorem print_int_nonneg (h : host_endian) (ud : List Nat) (n : Int) (h0 : 0 ≤ n)
    (h1 : n < 2 ^ 63) :
    ucl_emitter_print_int_msgpack h ud n =
      ud ++ (if n.toNat ≤ 127 then [n.toNat]
        else if n.toNat ≤ 255 then [0xcc, n.toNat]
        else if n.toNat ≤ 65535 then 0xcd :: big_endian_bytes 2 n.toNat
        else if n.toNat ≤ 2 ^ 32 - 1 then 0xce :: big_endian_bytes 4 n.toNat
        else 0xcf :: big_endian_bytes 8 n.toNat) :=
  print_int_nonneg_eq h ud n h0 h1

/-- C13 at concrete inputs: 5 is emitted as `[0x05]`, and 70000 as `0xce`
followed by its four big-endian bytes `00 01 11 70`. -/
theorem print_int_nonneg_witness :
    ucl_emitter_print_int_msgpack .little_endian [] 5 = [0x05] ∧
    ucl_emitter_print_int_msgpack .little_endian [] 70000 = [0xce, 0x00, 0x01, 0x11, 0x70] := by
  constructor
  · have := print_int_nonneg .little_endian [] 5 (by decide) (by decide)
    simpa using this
  · have := print_int_nonneg .little_endian [] 70000 (by decide) (by decide)
    rw [this]
    decide

/-- C14: for every byte string `s` of length `L < 2 ^ 32`, on either host,
`ucl_emitter_print_string_msgpack` appends to the sink exactly the header of
`L` followed by the bytes of `s`, where the header is `[0xa0 | L]` if
`L ≤ 31`, `[0xd9, L]` if `L ≤ 255`, `0xda` and `L` as 2 big-endian bytes if
`L ≤ 65535`, and `0xdb` and `L` as 4 big-endian bytes otherwise; the header has
1, 2, 3 or 5 bytes according to the first of the field widths 5, 8, 16, 32 bits
that holds `L`. -/
theorem print_string_header_and_bytes (h : host_endian) (ud s : List Nat)
    (hL : s.length < 2 ^ 32) :
    ucl_emitter_print_string_msgpack h ud s s.length
      = ud ++ msgpack_str_header s.length ++ s ∧
    (msgpack_str_header s.length).length
      = (if s.length < 2 ^ 5 then 1 else if s.length < 2 ^ 8 then 2
         else if s.length < 2 ^ 16 then 3 else 5) := by
  refine ⟨print_string_eq h ud s hL, ?_⟩
  unfold msgpack_str_header
  by_cases c1 : s.length ≤ 31
  · rw [if_pos c1, if_pos (by omega)]
    rfl
  · by_cases c2 : s.length ≤ 255
    · rw [if_neg c1, if_pos c2, if_neg (by omega), if_pos (by omega)]
      rfl
    · by_cases c3 : s.length ≤ 65535
      · rw [if_neg c1, if_neg c2, if_pos c3, if_neg (by omega), if_neg (by omega),
          if_pos (by omega)]
        simp [big_endian_bytes_length]
      · rw [if_neg c1, if_neg c2, if_neg c3, if_neg (by omega), if_neg (by omega),
          if_neg (by omega)]
        simp [big_endian_bytes_length]

/-- C14 at a concrete input: the one-byte string `"a"` is appended as
`0xa1 0x61`. -/
theorem print_string_header_and_bytes_witness :
    ucl_emitter_print_string_msgpack .big_endian [] [0x61] 1 = [0xa1, 0x61] := by
  have := (print_string_header_and_bytes .big_endian [] [0x61] (by decide)).1
  rw [show ([0x61] : List Nat).length = 1 from rfl] at this
  rw [this]
  decide

/-- C15: for every count `c < 2 ^ 32`, on either host,
`ucl_emitter_print_array_msgpack` appends exactly `[0x90 | c]` if `c ≤ 15`,
`0xdc` and `c` as 2 big-endian bytes if `c ≤ 65535`, and `0xdd` and `c` as 4
big-endian bytes otherwise; `ucl_emitter_print_object_msgpack` follows the same
rule with the tags `0x80`, `0xde` and `0xdf`. -/
theorem print_container_headers (h : host_endian) (ud : List Nat) (c : Nat)
    (hc : c < 2 ^ 32) :
    ucl_emitter_print_array_msgpack h ud c =
      ud ++ (if c ≤ 15 then [0x90 ||| c]
        else if c ≤ 65535 then 0xdc :: big_endian_bytes 2 c
        else 0xdd :: big_endian_bytes 4 c) ∧
    ucl_emitter_print_object_msgpack h ud c =
      ud ++ (if c ≤ 15 then [0x80 ||| c]
        else if c ≤ 65535 then 0xde :: big_endian_bytes 2 c
        else 0xdf :: big_endian_bytes 4 c) :=
  ⟨print_array_eq h ud c hc, print_object_eq h ud c hc⟩

/-- C15 at a concrete input: the header of an array of 16 elements is
`0xdc 0x00 0x10`. -/
theorem print_container_headers_witness :
    ucl_emitter_print_array_msgpack .little_endian [] 16 = [0xdc, 0x00, 0x10] := by
  rw [(print_container_headers .little_endian [] 16 (by decide)).1]
  decide

/-- C16: `ucl_emitter_print_key_msgpack` appends exactly what
`ucl_emitter_print_string_msgpack` appends for the key when `print_key` is
true, and leaves the sink unchanged when it is false; hence the object header
for 1 pair, the key `"a"` with `print_key` set and the integer 1 append exactly
`0x81 0xa1 0x61 0x01` to any sink. -/
theorem print_key_as_string (h : host_endian) (ud key : List Nat) (keylen : Nat) :
    ucl_emitter_print_key_msgpack h true ud key keylen
      = ucl_emitter_print_string_msgpack h ud key keylen ∧
    ucl_emitter_print_key_msgpack h false ud key keylen = ud ∧
    ucl_emitter_print_int_msgpack h
      (ucl_emitter_print_key_msgpack h true (ucl_emitter_print_object_msgpack h ud 1) [0x61] 1) 1
      = ud ++ [0x81, 0xa1, 0x61, 0x01] := by
  refine ⟨rfl, rfl, ?_⟩
  have hk : ucl_emitter_print_key_msgpack h true (ucl_emitter_print_object_msgpack h ud 1)
      [0x61] 1 = ucl_emitter_print_string_msgpack h (ucl_emitter_print_object_msgpack h ud 1)
      [0x61] ([0x61] : List Nat).length := rfl
  rw [hk, print_int_nonneg_eq h _ 1 (by decide) (by decide),
    print_string_eq h _ [0x61] (by decide), print_object_eq h ud 1 (by decide)]
  have e1 : msgpack_container_header 0x80 0xde 0xdf 1 = [0x81] := by decide
  have e2 : msgpack_str_header ([0x61] : List Nat).length = [0xa1] := by decide
  have e3 : msgpack_uint_encoding (1 : Int).toNat = [0x01] := by decide
  rw [e1, e2, e3]
  simp

/-- C17: for every double given by its 64-bit pattern `b`, on either host,
`ucl_emitter_print_double_msgpack` appends exactly 9 bytes, the tag `0xcb`
followed by the 8 bytes of `b`, most significant byte first; what it appends
never starts with the `float32` tag `0xca`. -/
theorem print_double_float64 (h : host_endian) (ud : List Nat) (b : Nat) (hb : b < 2 ^ 64) :
    ucl_emitter_print_double_msgpack h ud b = ud ++ 0xcb :: big_endian_bytes 8 b ∧
    (0xcb :: big_endian_bytes 8 b).length = 9 ∧
    ∀ rest, ucl_emitter_print_double_msgpack h ud b ≠ ud ++ 0xca :: rest := by
  have he := print_double_eq h ud b hb
  refine ⟨he, by simp [big_endian_bytes_length], ?_⟩
  intro rest hr
  rw [he] at hr
  have := List.append_cancel_left hr
  simp at this

/-- C17 at a concrete input: the double 1.0, bit pattern `0x3ff0000000000000`, is
appended as `cb 3f f0 00 00 00 00 00 00`. -/
theorem print_double_float64_witness :
    ucl_emitter_print_double_msgpack .little_endian [] 0x3ff0000000000000
      = [0xcb, 0x3f, 0xf0, 0, 0, 0, 0, 0, 0] := by
  rw [(print_double_float64 .little_endian [] 0x3ff0000000000000 (by decide)).1]
  decide

/-- C18: `ucl_emitter_print_bool_msgpack` appends exactly one byte, `0xc3` for
true and `0xc2` for false, and `ucl_emitter_print_null_msgpack` exactly the byte
`0xc0`, each through the repeated-byte operation of the sink with count 1; the
three results are pairwise distinct. -/
theorem print_bool_null_tags (ud : List Nat) :
    ucl_emitter_print_bool_msgpack ud true = ucl_emitter_append_character 0xc3 1 ud ∧
    ucl_emitter_print_bool_msgpack ud false = ucl_emitter_append_character 0xc2 1 ud ∧
    ucl_emitter_print_null_msgpack ud = ucl_emitter_append_character 0xc0 1 ud ∧
    ucl_emitter_print_bool_msgpack ud true = ud ++ [0xc3] ∧
    ucl_emitter_print_bool_msgpack ud false = ud ++ [0xc2] ∧
    ucl_emitter_print_null_msgpack ud = ud ++ [0xc0] ∧
    ucl_emitter_print_bool_msgpack ud true ≠ ucl_emitter_print_bool_msgpack ud false ∧
    ucl_emitter_print_bool_msgpack ud true ≠ ucl_emitter_print_null_msgpack ud ∧
    ucl_emitter_print_bool_msgpack ud false ≠ ucl_emitter_print_null_msgpack ud := by
  refine ⟨rfl, rfl, rfl, rfl, rfl, rfl, ?_, ?_, ?_⟩ <;>
    simp [ucl_emitter_print_bool_msgpack, ucl_emitter_print_null_msgpack,
      ucl_emitter_append_character]

/-- C19: for each width 16, 32, 64 and every value `x` of that width, on either
host, `FROM_BE (TO_BE x) = x` and `TO_BE (FROM_BE x) = x`; on a little-endian
host both macros are `SWAP_LE_BE`, which reverses the bytes of the value as
they lie in memory and is an involution. -/
theorem byte_order_round_trip (h : host_endian) (x16 x32 x64 : Nat) (h16 : x16 < 2 ^ 16)
    (h32 : x32 < 2 ^ 32) (h64 : x64 < 2 ^ 64) :
    (FROM_BE16 h (TO_BE16 h x16) = x16 ∧ TO_BE16 h (FROM_BE16 h x16) = x16 ∧
      FROM_BE32 h (TO_BE32 h x32) = x32 ∧ TO_BE32 h (FROM_BE32 h x32) = x32 ∧
      FROM_BE64 h (TO_BE64 h x64) = x64 ∧ TO_BE64 h (FROM_BE64 h x64) = x64) ∧
    (TO_BE16 .little_endian x16 = SWAP_LE_BE16 x16 ∧
      FROM_BE16 .little_endian x16 = SWAP_LE_BE16 x16 ∧
      TO_BE32 .little_endian x32 = SWAP_LE_BE32 x32 ∧
      FROM_BE32 .little_endian x32 = SWAP_LE_BE32 x32 ∧
      TO_BE64 .little_endian x64 = SWAP_LE_BE64 x64 ∧
      FROM_BE64 .little_endian x64 = SWAP_LE_BE64 x64) ∧
    (memcpy_bytes .little_endian 2 (SWAP_LE_BE16 x16)
        = (memcpy_bytes .little_endian 2 x16).reverse ∧
      memcpy_bytes .little_endian 4 (SWAP_LE_BE32 x32)
        = (memcpy_bytes .little_endian 4 x32).reverse ∧
      memcpy_bytes .little_endian 8 (SWAP_LE_BE64 x64)
        = (memcpy_bytes .little_endian 8 x64).reverse) ∧
    (SWAP_LE_BE16 (SWAP_LE_BE16 x16) = x16 ∧ SWAP_LE_BE32 (SWAP_LE_BE32 x32) = x32 ∧
      SWAP_LE_BE64 (SWAP_LE_BE64 x64) = x64) := by
  have s16 := swap16_swap16 x16 h16
  have s32 := swap32_swap32 x32 h32
  have s64 := swap64_swap64 x64 h64
  refine ⟨?_, ⟨rfl, rfl, rfl, rfl, rfl, rfl⟩,
    ⟨swap16_reverses x16 h16, swap32_reverses x32 h32, swap64_reverses x64 h64⟩,
    ⟨s16, s32, s64⟩⟩
  cases h
  · exact ⟨s16, s16, s32, s32, s64, s64⟩
  · simp only [FROM_BE16, TO_BE16, FROM_BE32, TO_BE32, FROM_BE64, TO_BE64, Nat.mod_mod,
      Nat.mod_eq_of_lt h16, Nat.mod_eq_of_lt h32, Nat.mod_eq_of_lt h64, and_self]

/-- C19 at concrete inputs: on a little-endian host `TO_BE16 0x1234` is `0x3412`,
and the round trips return `0x1234`, `0x12345678` and `0x0123456789abcdef`. -/
theorem byte_order_round_trip_witness :
    TO_BE16 .little_endian 0x1234 = 0x3412 ∧
    FROM_BE16 .little_endian (TO_BE16 .little_endian 0x1234) = 0x1234 ∧
    FROM_BE32 .little_endian (TO_BE32 .little_endian 0x12345678) = 0x12345678 ∧
    FROM_BE64 .little_endian (TO_BE64 .little_endian 0x0123456789abcdef)
      = 0x0123456789abcdef :=
  have w := (byte_order_round_trip .little_endian 0x1234 0x12345678 0x0123456789abcdef
    (by decide) (by decide) (by decide)).1
  ⟨by decide, w.1, w.2.2.1, w.2.2.2.2.1⟩

/-- C20, failing inputs: `str8` and `str16` are the table entries, without the
fixed flag and with a length field of 1 and 2 bytes, that have the top bits of
the lead bytes `0xd9` and `0xda`. On the chunk `0xd9` (`remain = 1 < 1 + 1`)
and on the chunk `0xda 0x00` (`remain = 2 < 1 + 2`), `ucl_msgpack_consume`
classifies the lead byte as a positive fixint and does not return within any
number of passes of its loop, so no "not enough data remain to read object's
length" error is recorded; and on no chunk does it return with an error
recorded. -/
theorem length_field_truncation_not_reported (h : host_endian) (begin fuel : Nat)
    (container : Option ucl_object_t) :
    (str8_entry ∈ parsers ∧ str8_entry.flags &&& MSGPACK_FLAG_FIXED = 0 ∧
      str8_entry.len = 1 ∧ classify_by_top_bits 0xd9 = some str8_entry) ∧
    (ucl_msgpack_get_parser_from_type 0xd9 = some positive_fixint_entry ∧
      ucl_msgpack_consume h fuel ⟨container, ⟨begin, [0xd9]⟩⟩ container = none) ∧
    (str16_entry ∈ parsers ∧ str16_entry.flags &&& MSGPACK_FLAG_FIXED = 0 ∧
      str16_entry.len = 2 ∧ classify_by_top_bits 0xda = some str16_entry) ∧
    (ucl_msgpack_get_parser_from_type 0xda = some positive_fixint_entry ∧
      ucl_msgpack_consume h fuel ⟨container, ⟨begin, [0xda, 0x00]⟩⟩ container = none) ∧
    (∀ (c : ucl_chunk) (r : consume_result),
      ucl_msgpack_consume h fuel ⟨container, c⟩ container = some r →
        r = .returned false none container) :=
  ⟨⟨by decide, by decide, rfl, by decide⟩,
   ⟨by decide, consume_stuck h fuel begin 0xd9 [] container container (by decide)⟩,
   ⟨by decide, by decide, rfl, by decide⟩,
   ⟨by decide, consume_stuck h fuel begin 0xda [0x00] container container (by decide)⟩,
   fun c r hr => consume_only_returns_false h fuel ⟨container, c⟩ container r hr⟩

/-- C21: the table `parsers` has 36 entries, exactly one for each wire format
from positive fixint through negative fixint (and none for `msgpack_invalid`);
under exact prefix comparison every byte other than `0xc1` matches exactly one
entry and `0xc1` matches none; hence in whatever order the entries are listed,
the first entry matching a byte exactly is the same one, so no shorter prefix
shadows a longer one. -/
theorem table_unambiguous_and_complete :
    parsers.length = 36 ∧
    (∀ f, (parsers.filter (fun d => d.fmt == f)).length
      = if f = .msgpack_invalid then 0 else 1) ∧
    (∀ t, t < 256 → (parsers.filter (fun d => top_bits_equal d t)).length
      = if t = 0xc1 then 0 else 1) ∧
    (∀ l : List ucl_msgpack_parser_t, l.Perm parsers → ∀ t, t < 256 →
      l.find? (fun d => top_bits_equal d t) = classify_by_top_bits t) := by
  refine ⟨rfl, formats_once, top_bits_match_count, ?_⟩
  intro l hl t ht
  have hc := top_bits_match_count t ht
  have hu : (parsers.filter (fun d => top_bits_equal d t)).length ≤ 1 := by
    rw [hc]
    split <;> omega
  exact find_perm_of_unique _ l parsers hl hu

/-- C22: for every chunk of bytes, `ucl_msgpack_consume` returns within some
number of passes of its loop if and only if every byte lies in `0xa0..0xbf` or
`0xe0..0xff`; in that case the read position is at offset `k` after `k` passes
and the function returns `false` with no error recorded after one pass per
byte; otherwise the loop stays for ever at the first byte outside these ranges
and the function never returns; and whenever the function returns, it returns
`false`, with no error recorded and the container as it was. -/
theorem consume_exact_outcome (h : host_endian) (c : ucl_chunk)
    (stack container : Option ucl_object_t) (hbytes : ∀ b ∈ c.data, b < 256) :
    ((∃ fuel, (ucl_msgpack_consume h fuel ⟨stack, c⟩ container).isSome = true) ↔
      ∀ b ∈ c.data, in_skipped_range b = true) ∧
    ((∀ b ∈ c.data, in_skipped_range b = true) →
      (∀ k, k ≤ c.remain → ∃ len, consume_loop h c container k (consume_init c)
        = .running ⟨c.begin + k, c.remain - k, .read_type, len⟩) ∧
      ucl_msgpack_consume h (c.remain + 1) ⟨stack, c⟩ container
        = some (.returned false none container)) ∧
    (∀ pre b post, c.data = pre ++ b :: post → (∀ x ∈ pre, in_skipped_range x = true) →
      in_skipped_range b = false →
      (∀ k, pre.length ≤ k → ∃ len, consume_loop h c container k (consume_init c)
        = .running ⟨c.begin + pre.length, c.remain - pre.length, .read_type, len⟩) ∧
      ∀ fuel, ucl_msgpack_consume h fuel ⟨stack, c⟩ container = none) ∧
    (∀ fuel r, ucl_msgpack_consume h fuel ⟨stack, c⟩ container = some r →
      r = .returned false none container) := by
  have hall : (∀ b ∈ c.data, in_skipped_range b = true) →
      ∀ x ∈ c.data, fixstr_entry.accepts x = true := by
    intro hs x hx
    rw [fixstr_accepts_eq x (hbytes x hx)]
    exact hs x hx
  have hsplit : ∀ pre b post, c.data = pre ++ b :: post →
      (∀ x ∈ pre, in_skipped_range x = true) → in_skipped_range b = false →
      (∀ x ∈ pre, fixstr_entry.accepts x = true) ∧ fixstr_entry.accepts b = false := by
    intro pre b post hd hpre hb
    constructor
    · intro x hx
      have hx' : x ∈ c.data := by rw [hd]; exact List.mem_append_left _ hx
      rw [fixstr_accepts_eq x (hbytes x hx')]
      exact hpre x hx
    · have hb' : b ∈ c.data := by rw [hd]; simp
      rw [fixstr_accepts_eq b (hbytes b hb')]
      exact hb
  refine ⟨⟨?_, ?_⟩, ?_, ?_, ?_⟩
  · rintro ⟨fuel, hf⟩
    by_contra hn
    obtain ⟨pre, b, post, hd, hpre, hb⟩ := exists_first_failing in_skipped_range c.data hn
    obtain ⟨hpre', hb'⟩ := hsplit pre b post hd hpre hb
    rw [consume_never_returns h c stack container pre post b hd hpre' hb' fuel] at hf
    simp at hf
  · intro hs
    refine ⟨c.remain + 1, ?_⟩
    rw [(consume_all_accepted h c stack container (hall hs)).2]
    rfl
  · intro hs
    exact consume_all_accepted h c stack container (hall hs)
  · intro pre b post hd hpre hb
    obtain ⟨hpre', hb'⟩ := hsplit pre b post hd hpre hb
    exact ⟨fun k hk => loop_at_first_rejected h c container pre post b hd hpre' hb' k hk,
      fun fuel => consume_never_returns h c stack container pre post b hd hpre' hb' fuel⟩
  · intro fuel r hr
    exact consume_only_returns_false h fuel ⟨stack, c⟩ container r hr

/-- C22 at concrete inputs: the chunk `0xa0 0xe1 0xff` is stepped over in three
passes and `ucl_msgpack_consume` returns `false` with no error at the fourth;
on the chunk `0xa0 0x05 0xff` the function never returns. -/
theorem consume_exact_outcome_witness :
    ucl_msgpack_consume .little_endian 4 ⟨none, ⟨4096, [0xa0, 0xe1, 0xff]⟩⟩ none
      = some (.returned false none none) ∧
    ∀ fuel, ucl_msgpack_consume .little_endian fuel ⟨none, ⟨4096, [0xa0, 0x05, 0xff]⟩⟩ none
      = none :=
  ⟨((consume_exact_outcome .little_endian ⟨4096, [0xa0, 0xe1, 0xff]⟩ none none
      (by decide)).2.1 (by decide)).2,
   ((consume_exact_outcome .little_endian ⟨4096, [0xa0, 0x05, 0xff]⟩ none none
      (by decide)).2.2.1 [0xa0] 0x05 [0xff] rfl (by decide) (by decide)).2⟩

/-- C23: for all 64-bit signed integers `a` and `b`, on either host, if
`ucl_emitter_print_int_msgpack` appends the same bytes for `a` and for `b` then
`a = b`; the first byte emitted for `a` gives the number of bytes emitted; and
if what is emitted for `a` is a prefix of what is emitted for `b` then `a = b`,
so no emitted encoding is a proper prefix of another. -/
theorem print_int_injective (h : host_endian) (ud : List Nat) (a b : Int)
    (ha1 : -2 ^ 63 ≤ a) (ha2 : a < 2 ^ 63) (hb1 : -2 ^ 63 ≤ b) (hb2 : b < 2 ^ 63) :
    (ucl_emitter_print_int_msgpack h ud a = ucl_emitter_print_int_msgpack h ud b → a = b) ∧
    (∃ lead rest, ucl_emitter_print_int_msgpack h [] a = lead :: rest ∧
      (lead :: rest).length = int_length_of_lead lead) ∧
    (ucl_emitter_print_int_msgpack h [] a <+: ucl_emitter_print_int_msgpack h [] b →
      a = b) := by
  have hinj : int_emitted_bytes a = int_emitted_bytes b → a = b := by
    intro he
    rw [← int_of_emitted_bytes a ha1 ha2, ← int_of_emitted_bytes b hb1 hb2, he]
  refine ⟨?_, ?_, ?_⟩
  · intro he
    rw [print_int_eq h ud a ha1 ha2, print_int_eq h ud b hb1 hb2] at he
    exact hinj (List.append_cancel_left he)
  · rw [print_int_eq h [] a ha1 ha2, List.nil_append]
    exact int_emitted_shape a ha1 ha2
  · rw [print_int_eq h [] a ha1 ha2, print_int_eq h [] b hb1 hb2, List.nil_append,
      List.nil_append]
    intro hp
    obtain ⟨la, ra, ea, hla⟩ := int_emitted_shape a ha1 ha2
    obtain ⟨lb, rb, eb, hlb⟩ := int_emitted_shape b hb1 hb2
    rw [ea, eb] at hp
    have hlead : la = lb := (List.cons_prefix_cons.1 hp).1
    apply hinj
    rw [ea, eb]
    apply hp.eq_of_length
    rw [hla, hlb, hlead]

/-- C23 at concrete inputs: 300 and -200 are emitted as different byte
sequences, and the first byte emitted for 300 gives the length 3. -/
theorem print_int_injective_witness :
    (ucl_emitter_print_int_msgpack .little_endian [] 300
        = ucl_emitter_print_int_msgpack .little_endian [] (-200) → (300 : Int) = -200) ∧
    (∃ lead rest, ucl_emitter_print_int_msgpack .little_endian [] 300 = lead :: rest ∧
      (lead :: rest).length = int_length_of_lead lead) ∧
    (ucl_emitter_print_int_msgpack .little_endian [] 300
        <+: ucl_emitter_print_int_msgpack .little_endian [] (-200) → (300 : Int) = -200) :=
  print_int_injective .little_endian [] 300 (-200) (by decide) (by decide) (by decide)
    (by decide)

end UclMsgpack
